import Mathlib

/-!
Verification of the `unpack` library (archive-to-folder normalization).

The filesystem is modelled as a finite snapshot: a list of existing paths
(component lists) together with their kinds (file or directory).  The
operations `os.Stat`, `ioutil.ReadDir`, `os.Mkdir`, `os.Rename`, `os.Remove`
and `os.RemoveAll` are modelled as executable functions on snapshots, with
POSIX-style success conditions.  The library functions of `lib.go` and
`unpack.go` are then translated one-to-one on top of these primitives; the
external decompression command is an oracle parameter, and the nanosecond
timestamp read by the flattening engine is an explicit argument.
-/

namespace Unpack

/-- Kind of a filesystem node: a regular file or a directory. -/
inductive NodeKind
  | file
  | dir
  deriving DecidableEq

/-- An absolute path, as its list of components. -/
abbrev Path := List String

/-- A snapshot of the filesystem: the existing paths with their kinds.
The root `[]` is implicit and is always a directory. -/
structure FS where
  nodes : List (Path × NodeKind)
  deriving DecidableEq

/-- Boolean path-prefix test, used by the executable filesystem operations. -/
def pfxOf : Path → Path → Bool
  | [], _ => true
  | _ :: _, [] => false
  | a :: l1, b :: l2 => a == b && pfxOf l1 l2

/-- Models `os.Stat`: the kind of the node at `p`, or `none` if absent. -/
def FS.stat (fs : FS) (p : Path) : Option NodeKind :=
  (fs.nodes.find? (fun e => e.1 == p)).map (fun e => e.2)

/-- The entries directly inside directory `p`: name and kind of each child. -/
def FS.childrenOf (fs : FS) (p : Path) : List (String × NodeKind) :=
  fs.nodes.filterMap (fun e =>
    if e.1.dropLast = p then
      match e.1.getLast? with
      | some name => some (name, e.2)
      | none => none
    else none)

/-- Models `ioutil.ReadDir`: fails unless `p` is an existing directory.  The
entries come in snapshot order; the Go function sorts them by name, but no
modelled property depends on the order. -/
def FS.readDir (fs : FS) (p : Path) : Option (List (String × NodeKind)) :=
  if p = [] ∨ fs.stat p = some NodeKind.dir then some (fs.childrenOf p) else none

/-- Models `os.Mkdir`: fails if the target exists or its parent is not a directory. -/
def FS.mkdir (fs : FS) (p : Path) : Option FS :=
  if p ≠ [] ∧ fs.stat p = none ∧ (p.dropLast = [] ∨ fs.stat p.dropLast = some NodeKind.dir) then
    some ⟨(p, NodeKind.dir) :: fs.nodes⟩
  else none

/-- Relocation of one path under another: paths below `src` are re-rooted below `dst`. -/
def movePath (src dst p : Path) : Path :=
  if pfxOf src p then dst ++ p.drop src.length else p

/-- The node list after a successful rename of `src` to `dst`. -/
def FS.renameApply (fs : FS) (src dst : Path) : FS :=
  ⟨(fs.nodes.filter (fun e => decide (e.1 ≠ dst))).map (fun e => (movePath src dst e.1, e.2))⟩

/-- Models POSIX `rename(2)` as used through `os.Rename`: moves the tree at
`src` to `dst`.  Renaming onto an existing path succeeds only when the kinds
match and a directory target is empty; a path cannot be moved below itself;
renaming a path onto itself is a successful no-op. -/
def FS.rename (fs : FS) (src dst : Path) : Option FS :=
  if src = dst then some fs
  else if src = [] ∨ dst = [] then none
  else if pfxOf src dst then none
  else
    match fs.stat src with
    | none => none
    | some k =>
      if dst.dropLast = [] ∨ fs.stat dst.dropLast = some NodeKind.dir then
        match fs.stat dst with
        | none => some (fs.renameApply src dst)
        | some k2 =>
          if k = k2 ∧ (k = NodeKind.file ∨ fs.childrenOf dst = []) then
            some (fs.renameApply src dst)
          else none
      else none

/-- Models `os.Remove`: deletes a file or an empty directory, else fails. -/
def FS.remove (fs : FS) (p : Path) : Option FS :=
  match fs.stat p with
  | none => none
  | some NodeKind.file => some ⟨fs.nodes.filter (fun e => decide (e.1 ≠ p))⟩
  | some NodeKind.dir =>
    if fs.childrenOf p = [] then some ⟨fs.nodes.filter (fun e => decide (e.1 ≠ p))⟩ else none

/-- Models `os.RemoveAll`: deletes `p` and everything below it; never fails. -/
def FS.removeAll (fs : FS) (p : Path) : FS :=
  ⟨fs.nodes.filter (fun e => ! pfxOf p e.1)⟩

/-- Wellformedness of a snapshot: no duplicate paths, no node at the root
path itself, and every node's parent is a directory of the snapshot (or the
root). -/
def FS.WF (fs : FS) : Prop :=
  (fs.nodes.map Prod.fst).Nodup ∧
  ∀ e ∈ fs.nodes, e.1 ≠ [] ∧
    (e.1.dropLast = [] ∨ (e.1.dropLast, NodeKind.dir) ∈ fs.nodes)

instance (fs : FS) : Decidable fs.WF := by
  unfold FS.WF
  infer_instance

/-- The error outcomes of the library (`errors.go` plus the `fmt.Errorf`
sites); failures coming from the filesystem layer are collapsed into
`fsError`. -/
inductive Err
  | noExtension (path : Path)
  | isDirectory (filename : String)
  | mkDirError (dir : Path)
  | unknownPacker (ext : String)
  | runError (cmd : String)
  | unpackerRegistered (ext : String)
  | extEmpty
  | extNoDot
  | missingPlaceholder
  | fsError
  deriving DecidableEq

/-- The suffix of a character list starting at its last `'.'`, if any. -/
def lastDotSuffix : List Char → Option (List Char)
  | [] => none
  | c :: cs =>
    match lastDotSuffix cs with
    | some e => some e
    | none => if c = '.' then some (c :: cs) else none

/-- Models `filepath.Ext` on a base filename (no separators): the suffix
starting at the final dot, or `""` when there is no dot. -/
def goExt (s : String) : String :=
  match lastDotSuffix s.toList with
  | some e => String.mk e
  | none => ""

/-- Models the regexp replacement `QuoteMeta(ext)+"$" → ""` of `mkDir`:
`ext`, as produced by `goExt`, is a suffix of `filename`, and the anchored
replacement removes exactly that trailing occurrence. -/
def stripTrailing (filename ext : String) : String :=
  String.mk (filename.toList.take (filename.toList.length - ext.toList.length))

/-- Append a string to the last component of a path: the path-valued reading
of `fmt.Sprintf(dir+"-%d", n)` on a slash-joined path string. -/
def appendToLast : Path → String → Path
  | [], s => [s]
  | [x], s => [x ++ s]
  | x :: y :: r, s => x :: appendToLast (y :: r) s

/-- Substring containment of `pat` in a character list; models the match of
the quoted-literal regexp `unpackerValidator` built from `"[FILE]"`. -/
def containsSeq (pat : List Char) : List Char → Bool
  | [] => pat.isEmpty
  | c :: cs => pat.isPrefixOf (c :: cs) || containsSeq pat cs

/-- Models `strings.Replace(s, pat, repl, -1)`: replace every (non-overlapping,
leftmost-first) occurrence of `pat`.  The recursion is made structural on a
fuel argument; each step consumes at least one character of `s`, so fuel
`s.length` (as supplied by `replaceFILE`) never runs out. -/
def replaceAll (pat repl : List Char) : Nat → List Char → List Char
  | 0, s => s
  | _ + 1, [] => []
  | fuel + 1, c :: cs =>
    if pat ≠ [] ∧ pat.isPrefixOf (c :: cs) then
      repl ++ replaceAll pat repl fuel ((c :: cs).drop pat.length)
    else
      c :: replaceAll pat repl fuel cs

/-- The `[FILE]` placeholder substitution applied to a command template. -/
def replaceFILE (cmd filename : String) : String :=
  String.mk (replaceAll "[FILE]".toList filename.toList cmd.toList.length cmd.toList)

/-- Models `strings.ToLower`, character by character. -/
def toLowerStr (s : String) : String :=
  String.mk (s.toList.map Char.toLower)

/-- The unpacker registry: lower-cased extension to command template.  Models
the package-level `unpacker` map; its mutex is irrelevant in this sequential
model, and the map is threaded explicitly instead of being global state. -/
abbrev Registry := List (String × String)

/-- Models the map read `unpacker[ext]`: the registered command, or `""`. -/
def lookupUnpacker (registry : Registry) (ext : String) : String :=
  ((registry.find? (fun e => e.1 == ext)).map (fun e => e.2)).getD ""

/-- Models `RegisterUnpacker` from `lib.go`, with its checks in source order:
empty extension, missing leading dot (`strings.IndexRune(ext, '.') != 0`,
i.e. the first character is not a dot), missing `[FILE]` placeholder, and
duplicate (case-insensitive) registration. -/
def RegisterUnpacker (registry : Registry) (ext cmd : String) : Except Err Registry :=
  if ext = "" then .error .extEmpty
  else if ¬ ext.toList.head? = some '.' then .error .extNoDot
  else if ¬ containsSeq "[FILE]".toList cmd.toList then .error .missingPlaceholder
  else if (registry.find? (fun e => e.1 == toLowerStr ext)).isSome then
    .error (.unpackerRegistered (toLowerStr ext))
  else .ok ((toLowerStr ext, cmd) :: registry)

/-- The directory name probed on attempt `i` (the value of Go's `try` after
increment): the base name itself for `i = 0`, `base-i` afterwards. -/
def mkDirCandidate (dir : Path) (i : Int) : Path :=
  if i > 0 then appendToLast dir ("-" ++ toString i) else dir

/-- Models the recursive `mkDirTry`.  `fuel` makes the recursion structural;
`mkDir` calls it with fuel 12, which is large enough that the source guard
`try == 10` always fires before the fuel runs out. -/
def mkDirTry (fs : FS) (dir : Path) : Int → Nat → Except (Err × FS) (Path × FS)
  | _, 0 => .error (.mkDirError dir, fs)
  | t, fuel + 1 =>
    if t = 10 then .error (.mkDirError dir, fs)
    else
      let createddir := mkDirCandidate dir (t + 1)
      match fs.mkdir createddir with
      | none => mkDirTry fs dir (t + 1) fuel
      | some fs2 => .ok (createddir, fs2)

/-- Models `mkDir`: fail without an extension, else strip the extension from
the filename and probe directories under the parent starting from `try = -1`. -/
def mkDir (fs : FS) (filename : String) (parentDir : Path) : Except (Err × FS) (Path × FS) :=
  let ext := goExt filename
  if ext = "" then .error (.noExtension (parentDir ++ [filename]), fs)
  else mkDirTry fs (parentDir ++ [stripTrailing filename ext]) (-1) 12

/-- Models `removeDirs`: best-effort removal of the listed junk
subdirectories (only entries that exist and are directories are removed). -/
def removeDirs (fs : FS) (dir : Path) (subdirs : List String) : FS :=
  subdirs.foldl
    (fun acc sub =>
      match acc.stat (dir ++ [sub]) with
      | some NodeKind.dir => acc.removeAll (dir ++ [sub])
      | _ => acc)
    fs

/-- Models `getDirContentsWithoutArchivFile`: list `dir` and keep every entry
that is a directory or whose name differs from `archivFile`. -/
def getDirContentsWithoutArchivFile (fs : FS) (dir : Path) (archivFile : String) :
    Except Err (List (String × NodeKind)) :=
  match fs.readDir dir with
  | none => .error .fsError
  | some finfos => .ok (finfos.filter (fun e => decide (e.2 = NodeKind.dir ∨ e.1 ≠ archivFile)))

/-- Models `_flatten`, the three-phase collapse: rename `dir` to the
timestamp-suffixed sibling `d`, promote `d/sub` back to `dir`, move the
archive back beside the promoted contents when it is present at
`d/archivfile` and is not a directory, then remove `d` (non-recursively).
Errors carry the filesystem state at the point of failure. -/
def _flatten (fs : FS) (archivfile : String) (dir : Path) (sub : String) (nanos : Nat) :
    Except (Err × FS) FS :=
  let d := appendToLast dir ("-" ++ toString nanos)
  match fs.rename dir d with
  | none => .error (.fsError, fs)
  | some fs1 =>
    match fs1.rename (d ++ [sub]) dir with
    | none => .error (.fsError, fs1)
    | some fs2 =>
      let afterArchive : Except (Err × FS) FS :=
        match fs2.stat (d ++ [archivfile]) with
        | some k =>
          if k ≠ NodeKind.dir then
            match fs2.rename (d ++ [archivfile]) (dir ++ [archivfile]) with
            | none => .error (.fsError, fs2)
            | some fs3 => .ok fs3
          else .ok fs2
        | none => .ok fs2
      match afterArchive with
      | .error e => .error e
      | .ok fs3 =>
        match fs3.remove d with
        | none => .error (.fsError, fs3)
        | some fs4 => .ok fs4

/-- Models `flatten`: list the destination directory without the archive
file, and collapse exactly when the remaining list is a single directory.
`filepath.Abs` is the identity here, paths being already absolute. -/
def flatten (fs : FS) (archivFile : String) (dir : Path) (nanos : Nat) :
    Except (Err × FS) FS :=
  match getDirContentsWithoutArchivFile fs dir archivFile with
  | .error e => .error (e, fs)
  | .ok finfos =>
    match finfos with
    | [e] =>
      if e.2 = NodeKind.dir then _flatten fs archivFile dir e.1 nanos else .ok fs
    | _ => .ok fs

/-- The outcome of running the external decompression command is an oracle:
`none` models command failure, `some fs2` the filesystem it leaves behind.
This stands in for `runPackerCMD` (a subshell invocation). -/
abbrev RunCmdOracle := FS → Path → String → Option FS

/-- Models `UnpackFileWithUnpacker`: allocate the directory, relocate the
archive into it, run the external command there, optionally remove the
archive, best-effort remove the junk directories, then flatten. -/
def UnpackFileWithUnpacker (fs : FS) (filename : String) (dir : Path) (unpacker : String)
    (remove : Bool) (rmDirs : List String) (runCmd : RunCmdOracle) (nanos : Nat) :
    Except (Err × FS) FS :=
  match mkDir fs filename dir with
  | .error e => .error e
  | .ok (createdDir, fs1) =>
    match fs1.rename (dir ++ [filename]) (createdDir ++ [filename]) with
    | none => .error (.fsError, fs1)
    | some fs2 =>
      let cmd := replaceFILE unpacker filename
      match runCmd fs2 createdDir cmd with
      | none => .error (.runError cmd, fs2)
      | some fs3 =>
        let afterRemove : Except (Err × FS) FS :=
          if remove then
            match fs3.remove (createdDir ++ [filename]) with
            | none => .error (.fsError, fs3)
            | some fs4 => .ok fs4
          else .ok fs3
        match afterRemove with
        | .error e => .error e
        | .ok fs4 =>
          let fs5 := if rmDirs.length > 0 then removeDirs fs4 createdDir rmDirs else fs4
          flatten fs5 filename createdDir nanos

/-- Models `UnpackFile`: stat the archive, reject directories and
extension-less names, look up the unpacker command, then delegate. -/
def UnpackFile (registry : Registry) (fs : FS) (filename : String) (dir : Path)
    (remove : Bool) (rmDirs : List String) (runCmd : RunCmdOracle) (nanos : Nat) :
    Except (Err × FS) FS :=
  match fs.stat (dir ++ [filename]) with
  | none => .error (.fsError, fs)
  | some k =>
    if k = NodeKind.dir then .error (.isDirectory filename, fs)
    else
      let ext := goExt filename
      if ext = "" then .error (.noExtension (dir ++ [filename]), fs)
      else
        let p := lookupUnpacker registry (toLowerStr ext)
        if p.length = 0 then .error (.unknownPacker (toLowerStr ext), fs)
        else UnpackFileWithUnpacker fs filename dir p remove rmDirs runCmd nanos

/-- Models `unpackFilesInDir` from `unpack.go`: iterate the directory's
entries, run `UnpackFile` on every non-directory entry accepted by the
callback, record each failure under the file's path, and return `none` when
nothing failed.  `nanosOf` supplies the timestamp each per-file flatten
reads from the clock. -/
def unpackFilesInDir (registry : Registry) (remove : Bool) (rmDirs : List String)
    (runCmd : RunCmdOracle) (nanosOf : String → Nat) (fs : FS) (dir : Path)
    (callback : String → Bool) : FS × Option (List (Path × Err)) :=
  match fs.readDir dir with
  | none => (fs, some [(dir, .fsError)])
  | some finfos =>
    let r := finfos.foldl
      (fun acc e =>
        if e.2 ≠ NodeKind.dir ∧ callback e.1 = true then
          match UnpackFile registry acc.1 e.1 dir remove rmDirs runCmd (nanosOf e.1) with
          | .ok fs2 => (fs2, acc.2)
          | .error (er, fs2) => (fs2, acc.2 ++ [(dir ++ [e.1], er)])
        else acc)
      ((fs, []) : FS × List (Path × Err))
    (r.1, if r.2.length > 0 then some r.2 else none)

/-- Specification recursion for the batch driver: process the entries in
order, thread the filesystem through every attempt, and collect the
failures.  Refined against `unpackFilesInDir` below. -/
def unpackBatchSpec (registry : Registry) (remove : Bool) (rmDirs : List String)
    (runCmd : RunCmdOracle) (nanosOf : String → Nat) (dir : Path)
    (callback : String → Bool) (fs : FS) :
    List (String × NodeKind) → FS × List (Path × Err)
  | [] => (fs, [])
  | e :: rest =>
    if e.2 ≠ NodeKind.dir ∧ callback e.1 = true then
      match UnpackFile registry fs e.1 dir remove rmDirs runCmd (nanosOf e.1) with
      | .ok fs2 => unpackBatchSpec registry remove rmDirs runCmd nanosOf dir callback fs2 rest
      | .error (er, fs2) =>
        let r := unpackBatchSpec registry remove rmDirs runCmd nanosOf dir callback fs2 rest
        (r.1, (dir ++ [e.1], er) :: r.2)
    else unpackBatchSpec registry remove rmDirs runCmd nanosOf dir callback fs rest

/-! ### Paths and prefixes -/

theorem pfxOf_iff (p q : Path) : pfxOf p q = true ↔ p <+: q := by
  induction p generalizing q with
  | nil =>
    constructor
    · intro _
      exact ⟨q, rfl⟩
    · intro _
      rfl
  | cons a l ih =>
    cases q with
    | nil =>
      constructor
      · intro h; simp [pfxOf] at h
      · rintro ⟨t, ht⟩; simp at ht
    | cons b m =>
      simp only [pfxOf, Bool.and_eq_true, beq_iff_eq, ih]
      constructor
      · rintro ⟨rfl, t, rfl⟩; exact ⟨t, rfl⟩
      · rintro ⟨t, ht⟩
        injection ht with h1 h2
        exact ⟨h1, t, h2⟩

theorem pfxOf_eq_false_iff (p q : Path) : pfxOf p q = false ↔ ¬ p <+: q := by
  rw [← pfxOf_iff]
  cases pfxOf p q <;> simp

theorem pref_length_le {p q : Path} (h : p <+: q) : p.length ≤ q.length := by
  obtain ⟨t, rfl⟩ := h
  simp

theorem pref_eq_take {p q : Path} (h : p <+: q) : p = q.take p.length := by
  obtain ⟨t, rfl⟩ := h
  rw [List.take_left]

theorem pref_eq_of_length_le {p q : Path} (h : p <+: q) (hl : q.length ≤ p.length) :
    p = q := by
  obtain ⟨t, rfl⟩ := h
  have : t = [] := by
    simp only [List.length_append] at hl
    exact List.eq_nil_of_length_eq_zero (by omega)
  simp [this]

theorem pref_rfl {p : Path} : p <+: p := ⟨[], by simp⟩

theorem pref_append {p t : Path} : p <+: p ++ t := ⟨t, rfl⟩

theorem pref_trans {p q r : Path} (h1 : p <+: q) (h2 : q <+: r) : p <+: r := by
  obtain ⟨t1, rfl⟩ := h1
  obtain ⟨t2, rfl⟩ := h2
  exact ⟨t1 ++ t2, by rw [List.append_assoc]⟩

theorem pref_cancel {p a b : Path} : (p ++ a) <+: (p ++ b) ↔ a <+: b := by
  constructor
  · rintro ⟨t, ht⟩
    rw [List.append_assoc] at ht
    exact ⟨t, List.append_cancel_left ht⟩
  · rintro ⟨t, rfl⟩
    exact ⟨t, by rw [List.append_assoc]⟩

theorem pref_of_append_eq_length {p q r : Path} (h : p <+: q ++ r)
    (hl : p.length = q.length) : p = q := by
  have := pref_eq_take h
  rw [hl, List.take_left] at this
  exact this

theorem pref_comparable {p1 p2 q : Path} (h1 : p1 <+: q) (h2 : p2 <+: q) :
    p1 <+: p2 ∨ p2 <+: p1 := by
  rcases le_total p1.length p2.length with hl | hl
  · left
    rw [pref_eq_take h1, pref_eq_take h2]
    have hx : q.take p1.length = (q.take p2.length).take p1.length := by
      rw [List.take_take, min_eq_left hl]
    rw [hx]
    exact ⟨(q.take p2.length).drop p1.length, List.take_append_drop _ _⟩
  · right
    rw [pref_eq_take h1, pref_eq_take h2]
    have hx : q.take p2.length = (q.take p1.length).take p2.length := by
      rw [List.take_take, min_eq_left hl]
    rw [hx]
    exact ⟨(q.take p1.length).drop p2.length, List.take_append_drop _ _⟩

theorem pref_concat_iff {p : Path} {a b : String} {r : Path} :
    (p ++ [a]) <+: (p ++ b :: r) ↔ a = b := by
  have hrw : p ++ b :: r = (p ++ [b]) ++ r := by simp
  rw [hrw]
  constructor
  · intro h
    have heq := pref_of_append_eq_length h (by simp)
    have hab := List.append_cancel_left heq
    simpa using hab
  · rintro rfl
    exact pref_append

/-! ### Basic `stat`, `childrenOf` and wellformedness facts -/

theorem FS.stat_eq_none_iff (fs : FS) (p : Path) :
    fs.stat p = none ↔ ∀ k, (p, k) ∉ fs.nodes := by
  unfold FS.stat
  rw [Option.map_eq_none', List.find?_eq_none]
  constructor
  · intro h k hk
    exact absurd (by simp : ((p, k) : Path × NodeKind).1 == p) (by simpa using h _ hk)
  · intro h e he hbeq
    rw [beq_iff_eq] at hbeq
    exact h e.2 (by rw [← hbeq]; exact he)

theorem FS.mem_of_stat {fs : FS} {p : Path} {k : NodeKind} (h : fs.stat p = some k) :
    (p, k) ∈ fs.nodes := by
  unfold FS.stat at h
  rw [Option.map_eq_some'] at h
  obtain ⟨e, he, hk⟩ := h
  have h1 : e.1 = p := by simpa using List.find?_some he
  have h2 := List.mem_of_find?_eq_some he
  have : e = (p, k) := by
    cases e
    simp_all
  rwa [this] at h2

theorem FS.stat_of_mem {fs : FS} {p : Path} {k : NodeKind}
    (hnd : (fs.nodes.map Prod.fst).Nodup) (h : (p, k) ∈ fs.nodes) :
    fs.stat p = some k := by
  have hsome : (fs.nodes.find? (fun e => e.1 == p)).isSome := by
    rw [List.find?_isSome]
    exact ⟨(p, k), h, by simp⟩
  obtain ⟨e, he⟩ := Option.isSome_iff_exists.mp hsome
  have h1 : e.1 = p := by simpa using List.find?_some he
  have h2 := List.mem_of_find?_eq_some he
  have : e = (p, k) := List.inj_on_of_nodup_map hnd h2 h (by simp [h1])
  unfold FS.stat
  rw [he, this]
  rfl

theorem FS.mem_childrenOf_iff {fs : FS} {p : Path} {name : String} {k : NodeKind} :
    (name, k) ∈ fs.childrenOf p ↔ (p ++ [name], k) ∈ fs.nodes := by
  unfold FS.childrenOf
  rw [List.mem_filterMap]
  constructor
  · rintro ⟨⟨q, k1⟩, he, hf⟩
    by_cases hd : q.dropLast = p
    · rw [if_pos hd] at hf
      rcases hg : q.getLast? with _ | last
      · rw [hg] at hf; cases hf
      · rw [hg] at hf
        simp only [Option.some.injEq, Prod.mk.injEq] at hf
        obtain ⟨rfl, rfl⟩ := hf
        have hne : q ≠ [] := by intro h0; rw [h0] at hg; cases hg
        have hlq : q.getLast? = some (q.getLast hne) := List.getLast?_eq_getLast q hne
        rw [hg] at hlq
        have hgl : q.getLast hne = last := by
          injection hlq with h
          exact h.symm
        have he1 : q = p ++ [last] := by
          conv_lhs => rw [← List.dropLast_append_getLast hne]
          rw [hd, hgl]
        rwa [he1] at he
    · rw [if_neg hd] at hf; cases hf
  · intro h
    refine ⟨(p ++ [name], k), h, ?_⟩
    rw [if_pos (by simp), List.getLast?_concat]

theorem FS.childrenOf_eq_nil_iff {fs : FS} {p : Path} :
    fs.childrenOf p = [] ↔ ∀ name k, (p ++ [name], k) ∉ fs.nodes := by
  rw [List.eq_nil_iff_forall_not_mem]
  constructor
  · intro h name k hm
    exact h (name, k) (FS.mem_childrenOf_iff.mpr hm)
  · rintro h ⟨name, k⟩ hm
    exact h name k (FS.mem_childrenOf_iff.mp hm)

theorem dropLast_append_ne {q t : Path} (ht : t ≠ []) :
    (q ++ t).dropLast = q ++ t.dropLast := by
  induction q with
  | nil => simp
  | cons a q ih =>
    have h1 : q ++ t ≠ [] := by
      intro h0
      rcases List.append_eq_nil.mp h0 with ⟨-, h⟩
      exact ht h
    simp only [List.cons_append]
    rw [List.dropLast_cons_of_ne_nil h1, ih]

theorem FS.WF.ne_nil {fs : FS} (h : fs.WF) {p : Path} {k : NodeKind}
    (hm : (p, k) ∈ fs.nodes) : p ≠ [] := (h.2 _ hm).1

theorem FS.WF.parent_mem {fs : FS} (h : fs.WF) {p : Path} {k : NodeKind}
    (hm : (p, k) ∈ fs.nodes) :
    p.dropLast = [] ∨ (p.dropLast, NodeKind.dir) ∈ fs.nodes := (h.2 _ hm).2

theorem FS.WF.mem_of_pref_aux {fs : FS} (hWF : fs.WF) :
    ∀ n p k q, p.length ≤ n → (p, k) ∈ fs.nodes → q <+: p → q ≠ [] → q ≠ p →
      (q, NodeKind.dir) ∈ fs.nodes := by
  intro n
  induction n with
  | zero =>
    intro p k q hlen hm hq hq0 hqp
    have := hWF.ne_nil hm
    have : p.length ≠ 0 := by
      intro h0
      exact this (List.eq_nil_of_length_eq_zero h0)
    omega
  | succ n ih =>
    intro p k q hlen hm hq hq0 hqp
    obtain ⟨t, rfl⟩ := hq
    have ht : t ≠ [] := by
      rintro rfl
      exact hqp (by simp)
    have hdrop : (q ++ t).dropLast = q ++ t.dropLast := dropLast_append_ne ht
    rcases hWF.parent_mem hm with hroot | hpar
    · exfalso
      rw [hdrop] at hroot
      rcases List.append_eq_nil.mp hroot with ⟨h, -⟩
      exact hq0 h
    · rw [hdrop] at hpar
      by_cases hq2 : q = q ++ t.dropLast
      · rwa [hq2]
      · refine ih (q ++ t.dropLast) NodeKind.dir q ?_ hpar ⟨t.dropLast, rfl⟩ hq0 hq2
        have h1 : t.dropLast.length < t.length := by
          have := List.length_pos.mpr ht
          simp only [List.length_dropLast]
          omega
        simp only [List.length_append] at hlen ⊢
        omega

theorem FS.WF.mem_of_pref {fs : FS} (hWF : fs.WF) {p : Path} {k : NodeKind} {q : Path}
    (hm : (p, k) ∈ fs.nodes) (hq : q <+: p) (hq0 : q ≠ []) (hqp : q ≠ p) :
    (q, NodeKind.dir) ∈ fs.nodes :=
  hWF.mem_of_pref_aux p.length p k q le_rfl hm hq hq0 hqp

theorem FS.stat_none_desc {fs : FS} (hWF : fs.WF) {q : Path} (h : fs.stat q = none)
    (hq0 : q ≠ []) {p : Path} (hp : q <+: p) : fs.stat p = none := by
  rcases hst : fs.stat p with _ | k
  · rfl
  · exfalso
    have hm := FS.mem_of_stat hst
    by_cases hqp : q = p
    · rw [hqp] at h
      rw [h] at hst
      cases hst
    · have hmem := hWF.mem_of_pref hm hp hq0 hqp
      have := FS.stat_of_mem hWF.1 hmem
      rw [h] at this
      cases this

theorem FS.file_no_desc {fs : FS} (hWF : fs.WF) {q : Path}
    (h : fs.stat q = some NodeKind.file) {p : Path} (hp : q <+: p) (hne : p ≠ q) :
    fs.stat p = none := by
  rcases hst : fs.stat p with _ | k
  · rfl
  · exfalso
    have hm := FS.mem_of_stat hst
    have hq0 : q ≠ [] := hWF.ne_nil (FS.mem_of_stat h)
    have hmem := hWF.mem_of_pref hm hp hq0 (Ne.symm hne)
    have := FS.stat_of_mem hWF.1 hmem
    rw [h] at this
    cases this

/-! ### `mkdir` -/

theorem FS.mkdir_eq_some_iff {fs fs2 : FS} {p : Path} :
    fs.mkdir p = some fs2 ↔
      p ≠ [] ∧ fs.stat p = none ∧
      (p.dropLast = [] ∨ fs.stat p.dropLast = some NodeKind.dir) ∧
      fs2 = ⟨(p, NodeKind.dir) :: fs.nodes⟩ := by
  unfold FS.mkdir
  split
  · rename_i hc
    simp only [Option.some.injEq]
    constructor
    · intro h
      exact ⟨hc.1, hc.2.1, hc.2.2, h.symm⟩
    · intro h
      exact h.2.2.2.symm
  · rename_i hc
    constructor
    · intro h
      cases h
    · intro h
      exact absurd ⟨h.1, h.2.1, h.2.2.1⟩ hc

theorem FS.stat_cons {nodes : List (Path × NodeKind)} {p : Path} {k : NodeKind} (q : Path) :
    (⟨(p, k) :: nodes⟩ : FS).stat q = if q = p then some k else (⟨nodes⟩ : FS).stat q := by
  unfold FS.stat
  rw [List.find?_cons]
  by_cases hq : q = p
  · subst hq
    simp
  · have hb : (p == q) = false := by
      rw [beq_eq_false_iff_ne]
      exact Ne.symm hq
    simp [hb, hq]

theorem FS.mkdir_stat {fs fs2 : FS} {p : Path} (h : fs.mkdir p = some fs2) (q : Path) :
    fs2.stat q = if q = p then some NodeKind.dir else fs.stat q := by
  obtain ⟨-, -, -, rfl⟩ := FS.mkdir_eq_some_iff.mp h
  exact FS.stat_cons q

theorem FS.mkdir_WF {fs fs2 : FS} {p : Path} (hWF : fs.WF) (h : fs.mkdir p = some fs2) :
    fs2.WF := by
  obtain ⟨hp0, hstat, hpar, rfl⟩ := FS.mkdir_eq_some_iff.mp h
  constructor
  · simp only [List.map_cons]
    refine List.nodup_cons.mpr ⟨?_, hWF.1⟩
    intro hmem
    rw [List.mem_map] at hmem
    obtain ⟨⟨a, k⟩, he, hfe⟩ := hmem
    simp only at hfe
    subst hfe
    exact (FS.stat_eq_none_iff fs _).mp hstat k he
  · rintro ⟨a, k⟩ hmem
    rw [List.mem_cons] at hmem
    rcases hmem with heq | hmem
    · injection heq with h1 h2
      subst h1
      refine ⟨hp0, ?_⟩
      rcases hpar with hroot | hpdir
      · exact Or.inl hroot
      · exact Or.inr (List.mem_cons_of_mem _ (FS.mem_of_stat hpdir))
    · have hw := hWF.2 _ hmem
      refine ⟨hw.1, ?_⟩
      rcases hw.2 with hroot | hmemp
      · exact Or.inl hroot
      · exact Or.inr (List.mem_cons_of_mem _ hmemp)

/-! ### `remove` -/

theorem find?_filter_ne {nodes : List (Path × NodeKind)} {p q : Path} (hq : q ≠ p) :
    (nodes.filter (fun e => decide (e.1 ≠ p))).find? (fun e => e.1 == q)
      = nodes.find? (fun e => e.1 == q) := by
  induction nodes with
  | nil => rfl
  | cons e rest ih =>
    by_cases hep : e.1 = p
    · rw [List.filter_cons_of_neg (by simp [hep]), ih, List.find?_cons]
      have hb : (e.1 == q) = false := by
        rw [beq_eq_false_iff_ne, hep]
        exact Ne.symm hq
      rw [hb]
    · rw [List.filter_cons_of_pos (by simp [hep]), List.find?_cons, List.find?_cons]
      by_cases hb : (e.1 == q) = true
      · rw [hb]
      · rw [Bool.not_eq_true] at hb
        rw [hb]
        exact ih

theorem FS.stat_filter_ne (nodes : List (Path × NodeKind)) (p q : Path) :
    (⟨nodes.filter (fun e => decide (e.1 ≠ p))⟩ : FS).stat q
      = if q = p then none else (⟨nodes⟩ : FS).stat q := by
  by_cases hq : q = p
  · rw [if_pos hq]
    subst hq
    rw [FS.stat_eq_none_iff]
    intro k hk
    have h2 := (List.mem_filter.mp hk).2
    simp at h2
  · rw [if_neg hq]
    unfold FS.stat
    rw [find?_filter_ne hq]

theorem FS.remove_eq_some_iff {fs fs2 : FS} {p : Path} :
    fs.remove p = some fs2 ↔
      ((fs.stat p = some NodeKind.file ∨
        (fs.stat p = some NodeKind.dir ∧ fs.childrenOf p = [])) ∧
       fs2 = ⟨fs.nodes.filter (fun e => decide (e.1 ≠ p))⟩) := by
  unfold FS.remove
  split
  · rename_i hnone
    constructor
    · intro h2
      cases h2
    · rintro ⟨hcond, -⟩
      rcases hcond with h2 | ⟨h2, -⟩ <;> (rw [hnone] at h2; cases h2)
  · rename_i hfile
    constructor
    · intro h2
      injection h2 with h3
      exact ⟨Or.inl hfile, h3.symm⟩
    · rintro ⟨-, rfl⟩
      rfl
  · rename_i hdir
    by_cases hc : fs.childrenOf p = []
    · rw [if_pos hc]
      constructor
      · intro h2
        injection h2 with h3
        exact ⟨Or.inr ⟨hdir, hc⟩, h3.symm⟩
      · rintro ⟨-, rfl⟩
        rfl
    · rw [if_neg hc]
      constructor
      · intro h2
        cases h2
      · rintro ⟨hcond, -⟩
        rcases hcond with h2 | ⟨-, h2⟩
        · rw [hdir] at h2
          simp at h2
        · exact absurd h2 hc

theorem FS.remove_stat {fs fs2 : FS} {p : Path} (h : fs.remove p = some fs2) (q : Path) :
    fs2.stat q = if q = p then none else fs.stat q := by
  obtain ⟨-, rfl⟩ := FS.remove_eq_some_iff.mp h
  exact FS.stat_filter_ne fs.nodes p q

theorem FS.remove_dir_of_empty {fs : FS} {p : Path} (h : fs.stat p = some NodeKind.dir)
    (hc : fs.childrenOf p = []) :
    fs.remove p = some ⟨fs.nodes.filter (fun e => decide (e.1 ≠ p))⟩ := by
  unfold FS.remove
  rw [h]
  rw [if_pos hc]

theorem FS.remove_none_of_child {fs : FS} {p : Path} {name : String} {k : NodeKind}
    (h : fs.stat p = some NodeKind.dir) (hm : (p ++ [name], k) ∈ fs.nodes) :
    fs.remove p = none := by
  have hc : fs.childrenOf p ≠ [] := by
    intro h0
    have hmm := FS.mem_childrenOf_iff.mpr hm
    rw [h0] at hmm
    cases hmm
  unfold FS.remove
  rw [h]
  rw [if_neg hc]

theorem FS.remove_WF {fs fs2 : FS} {p : Path} (hWF : fs.WF) (h : fs.remove p = some fs2) :
    fs2.WF := by
  obtain ⟨hcond, rfl⟩ := FS.remove_eq_some_iff.mp h
  constructor
  · exact ((List.filter_sublist _).map Prod.fst).nodup hWF.1
  · rintro ⟨a, k⟩ hmem
    have hmem2 := List.mem_filter.mp hmem
    have ha := hmem2.1
    have hanep : a ≠ p := by simpa using hmem2.2
    have hw := hWF.2 _ ha
    refine ⟨hw.1, ?_⟩
    rcases hw.2 with hroot | hmemp
    · exact Or.inl hroot
    · right
      rw [List.mem_filter]
      refine ⟨hmemp, ?_⟩
      simp only [decide_eq_true_eq]
      intro heq
      have hane : a ≠ [] := hw.1
      have hrec : a.dropLast ++ [a.getLast hane] = a := List.dropLast_append_getLast hane
      have hchild : (a.getLast hane, k) ∈ fs.childrenOf p := by
        rw [FS.mem_childrenOf_iff, ← heq, hrec]
        exact ha
      rcases hcond with hfile | ⟨-, hempty⟩
      · have hdir : (p, NodeKind.dir) ∈ fs.nodes := by
          have hmm := FS.mem_childrenOf_iff.mp hchild
          exact hWF.mem_of_pref hmm ⟨[a.getLast hane], rfl⟩
            (by
              intro h0
              rw [h0] at hfile
              exact hWF.ne_nil (FS.mem_of_stat hfile) rfl)
            (by
              intro h0
              have hl := congrArg List.length h0
              simp at hl)
        have hdst := FS.stat_of_mem hWF.1 hdir
        rw [hfile] at hdst
        cases hdst
      · rw [hempty] at hchild
        cases hchild

/-! ### `rename` -/

theorem dropLast_pref {p : Path} (h : p ≠ []) : p.dropLast <+: p :=
  ⟨[p.getLast h], List.dropLast_append_getLast h⟩

theorem dropLast_ne {p : Path} (h : p ≠ []) : p.dropLast ≠ p := by
  intro h0
  have h1 := congrArg List.length h0
  rw [List.length_dropLast] at h1
  have h2 := List.length_pos.mpr h
  omega

theorem movePath_of_pref {src dst p : Path} (h : src <+: p) :
    movePath src dst p = dst ++ p.drop src.length := by
  unfold movePath
  rw [if_pos ((pfxOf_iff _ _).mpr h)]

theorem movePath_of_not_pref {src dst p : Path} (h : ¬ src <+: p) :
    movePath src dst p = p := by
  unfold movePath
  rw [if_neg]
  intro hb
  exact h ((pfxOf_iff _ _).mp hb)

theorem movePath_append {src dst r : Path} :
    movePath src dst (src ++ r) = dst ++ r := by
  rw [movePath_of_pref pref_append, List.drop_left]

theorem FS.mem_renameApply_iff {fs : FS} {src dst : Path} {q : Path} {k : NodeKind} :
    (q, k) ∈ (fs.renameApply src dst).nodes ↔
      ∃ p, (p, k) ∈ fs.nodes ∧ p ≠ dst ∧ movePath src dst p = q := by
  unfold FS.renameApply
  simp only [List.mem_map, List.mem_filter, decide_eq_true_eq]
  constructor
  · rintro ⟨⟨p, k1⟩, ⟨hp, hpd⟩, heq⟩
    simp only [Prod.mk.injEq] at heq
    obtain ⟨h1, rfl⟩ := heq
    exact ⟨p, hp, hpd, h1⟩
  · rintro ⟨p, hp, hpd, hq⟩
    exact ⟨(p, k), ⟨hp, hpd⟩, by simp [hq]⟩

theorem FS.rename_some_inv {fs fs2 : FS} {src dst : Path} (hne : src ≠ dst)
    (h : fs.rename src dst = some fs2) :
    src ≠ [] ∧ dst ≠ [] ∧ ¬ src <+: dst ∧
    (∃ k, fs.stat src = some k ∧
      (dst.dropLast = [] ∨ fs.stat dst.dropLast = some NodeKind.dir) ∧
      (fs.stat dst = none ∨
        (fs.stat dst = some k ∧ (k = NodeKind.file ∨ fs.childrenOf dst = [])))) ∧
    fs2 = fs.renameApply src dst := by
  unfold FS.rename at h
  rw [if_neg hne] at h
  split at h
  · cases h
  · rename_i h0
    split at h
    · cases h
    · rename_i hp
      split at h
      · cases h
      · rename_i k hst
        split at h
        · rename_i hpar
          split at h
          · rename_i hdst
            injection h with h2
            push_neg at h0
            exact ⟨h0.1, h0.2, fun hc => hp ((pfxOf_iff _ _).mpr hc),
              ⟨k, hst, hpar, Or.inl hdst⟩, h2.symm⟩
          · rename_i k2 hdst
            split at h
            · rename_i hcc
              injection h with h2
              push_neg at h0
              refine ⟨h0.1, h0.2, fun hc => hp ((pfxOf_iff _ _).mpr hc),
                ⟨k, hst, hpar, Or.inr ⟨?_, hcc.2⟩⟩, h2.symm⟩
              rw [hdst, hcc.1]
            · cases h
        · cases h

theorem FS.rename_no_alien {fs fs2 : FS} {src dst : Path} (hWF : fs.WF) (hne : src ≠ dst)
    (h : fs.rename src dst = some fs2) {q : Path} {k : NodeKind}
    (hq : (q, k) ∈ fs.nodes) (hpref : dst <+: q) : q = dst := by
  by_contra hqd
  obtain ⟨-, hd0, -, ⟨k1, hst, hpar, hdstc⟩, -⟩ := FS.rename_some_inv hne h
  have hdir : (dst, NodeKind.dir) ∈ fs.nodes :=
    hWF.mem_of_pref hq hpref hd0 (Ne.symm hqd)
  rcases hdstc with hnone | ⟨hdst, hcase⟩
  · rw [FS.stat_of_mem hWF.1 hdir] at hnone
    cases hnone
  · have hkdir : k1 = NodeKind.dir := by
      have hx := FS.stat_of_mem hWF.1 hdir
      rw [hdst] at hx
      exact Option.some.inj hx
    rcases hcase with hfile | hemp
    · rw [hkdir] at hfile
      cases hfile
    · obtain ⟨t, rfl⟩ := hpref
      rcases t with _ | ⟨c, tl⟩
      · exact hqd (by simp)
      · by_cases hceq : dst ++ [c] = dst ++ c :: tl
        · have hmm : (dst ++ [c], k) ∈ fs.nodes := by
            rw [hceq]
            exact hq
          rw [FS.childrenOf_eq_nil_iff] at hemp
          exact hemp c k hmm
        · have hc : (dst ++ [c], NodeKind.dir) ∈ fs.nodes :=
            hWF.mem_of_pref hq ⟨tl, by simp⟩ (by simp) hceq
          rw [FS.childrenOf_eq_nil_iff] at hemp
          exact hemp c NodeKind.dir hc

theorem FS.rename_WF {fs fs2 : FS} {src dst : Path} (hWF : fs.WF)
    (h : fs.rename src dst = some fs2) : fs2.WF := by
  by_cases hne : src = dst
  · unfold FS.rename at h
    rw [if_pos hne] at h
    injection h with h2
    rwa [← h2]
  · obtain ⟨hs0, hd0, hnp, ⟨k1, hst, hpar, hdstc⟩, rfl⟩ := FS.rename_some_inv hne h
    constructor
    · unfold FS.renameApply
      simp only [List.map_map]
      refine List.Nodup.map_on ?_ ((hWF.1.of_map).filter _)
      intro e1 he1 e2 he2 heq
      simp only [Function.comp] at heq
      have hmem1 := List.mem_filter.mp he1
      have hmem2 := List.mem_filter.mp he2
      have hd1 : e1.1 ≠ dst := by simpa using hmem1.2
      have hd2 : e2.1 ≠ dst := by simpa using hmem2.2
      have hkey : e1.1 = e2.1 := by
        unfold movePath at heq
        by_cases h1 : pfxOf src e1.1 <;> by_cases h2 : pfxOf src e2.1
        · rw [if_pos h1, if_pos h2] at heq
          have hdrop := List.append_cancel_left heq
          obtain ⟨t1, ht1⟩ := (pfxOf_iff _ _).mp h1
          obtain ⟨t2, ht2⟩ := (pfxOf_iff _ _).mp h2
          rw [← ht1, ← ht2, List.drop_left, List.drop_left] at hdrop
          rw [← ht1, ← ht2, hdrop]
        · rw [if_pos h1, if_neg h2] at heq
          exact absurd (FS.rename_no_alien hWF hne h hmem2.1 ⟨_, heq⟩) hd2
        · rw [if_neg h1, if_pos h2] at heq
          exact absurd (FS.rename_no_alien hWF hne h hmem1.1 ⟨_, heq.symm⟩) hd1
        · rw [if_neg h1, if_neg h2] at heq
          exact heq
      exact List.inj_on_of_nodup_map hWF.1 hmem1.1 hmem2.1 hkey
    · rintro ⟨q, k⟩ hqmem
      rw [show (⟨q, k⟩ : Path × NodeKind) = (q, k) from rfl] at hqmem
      rw [FS.mem_renameApply_iff] at hqmem
      obtain ⟨p, hp, hpd, hmv⟩ := hqmem
      by_cases hsp : src <+: p
      · obtain ⟨r, hr⟩ := hsp
        rcases r with _ | ⟨c, tl⟩
        · have hps : p = src := by rw [← hr, List.append_nil]
          subst hps
          have hqd : q = dst := by
            rw [← hmv, movePath_of_pref pref_rfl, List.drop_length, List.append_nil]
          subst hqd
          refine ⟨hd0, ?_⟩
          rcases hpar with hroot | hpdir
          · exact Or.inl hroot
          · right
            rw [FS.mem_renameApply_iff]
            refine ⟨q.dropLast, FS.mem_of_stat hpdir, ?_, ?_⟩
            · exact dropLast_ne hd0
            · refine movePath_of_not_pref ?_
              intro hcon
              exact hnp (pref_trans hcon (dropLast_pref hd0))
        · have hrne : (c :: tl : Path) ≠ [] := by simp
          have hq2 : q = dst ++ c :: tl := by
            rw [← hmv, ← hr, movePath_append]
          subst hq2
          refine ⟨by simp, ?_⟩
          right
          have hpl : p.dropLast = src ++ (c :: tl).dropLast := by
            rw [← hr]
            exact dropLast_append_ne hrne
          rcases hWF.parent_mem hp with hroot | hpp
          · exfalso
            rw [hpl] at hroot
            rcases List.append_eq_nil.mp hroot with ⟨h1, -⟩
            exact hs0 h1
          · rw [hpl] at hpp
            rw [FS.mem_renameApply_iff]
            refine ⟨src ++ (c :: tl).dropLast, hpp, ?_, ?_⟩
            · intro hcon
              exact hnp (hcon ▸ pref_append)
            · rw [movePath_append, dropLast_append_ne hrne]
      · have hpq : p = q := by rw [← hmv, movePath_of_not_pref hsp]
        subst hpq
        refine ⟨hWF.ne_nil hp, ?_⟩
        rcases hWF.parent_mem hp with hroot | hpp
        · exact Or.inl hroot
        · right
          rw [FS.mem_renameApply_iff]
          refine ⟨p.dropLast, hpp, ?_, ?_⟩
          · intro hcon
            have hpd2 : dst <+: p := hcon ▸ dropLast_pref (hWF.ne_nil hp)
            exact hpd (FS.rename_no_alien hWF hne h hp hpd2)
          · refine movePath_of_not_pref ?_
            intro hcon
            exact hsp (pref_trans hcon (dropLast_pref (hWF.ne_nil hp)))

theorem FS.rename_stat {fs fs2 : FS} {src dst : Path} (hWF : fs.WF) (hne : src ≠ dst)
    (h : fs.rename src dst = some fs2) (q : Path) :
    fs2.stat q =
      if pfxOf dst q then fs.stat (src ++ q.drop dst.length)
      else if pfxOf src q then none
      else fs.stat q := by
  have hWF2 := FS.rename_WF hWF h
  obtain ⟨hs0, hd0, hnp, ⟨k1, hst, hpar, hdstc⟩, hfs2⟩ := FS.rename_some_inv hne h
  by_cases hd : pfxOf dst q
  · rw [if_pos hd]
    have hdq := (pfxOf_iff _ _).mp hd
    obtain ⟨t, rfl⟩ := hdq
    rw [List.drop_left]
    rcases hs : fs.stat (src ++ t) with _ | k
    · rw [FS.stat_eq_none_iff]
      intro k hk
      rw [hfs2, FS.mem_renameApply_iff] at hk
      obtain ⟨p, hp, hpd, hmv⟩ := hk
      by_cases hsp : src <+: p
      · obtain ⟨r, hr⟩ := hsp
        rw [← hr, movePath_append] at hmv
        have hrt : r = t := List.append_cancel_left hmv
        rw [hrt] at hr
        rw [← hr] at hp
        exact (FS.stat_eq_none_iff fs (src ++ t)).mp hs k hp
      · rw [movePath_of_not_pref hsp] at hmv
        subst hmv
        exact hpd (FS.rename_no_alien hWF hne h hp pref_append)
    · have hmem := FS.mem_of_stat hs
      have hk2 : (dst ++ t, k) ∈ fs2.nodes := by
        rw [hfs2, FS.mem_renameApply_iff]
        refine ⟨src ++ t, hmem, ?_, movePath_append⟩
        intro hcon
        exact hnp (hcon ▸ pref_append)
      exact FS.stat_of_mem hWF2.1 hk2
  · rw [if_neg hd]
    by_cases hs : pfxOf src q
    · rw [if_pos hs]
      rw [FS.stat_eq_none_iff]
      intro k hk
      rw [hfs2, FS.mem_renameApply_iff] at hk
      obtain ⟨p, hp, hpd, hmv⟩ := hk
      by_cases hsp : src <+: p
      · obtain ⟨r, hr⟩ := hsp
        rw [← hr, movePath_append] at hmv
        exact hd ((pfxOf_iff _ _).mpr (hmv ▸ pref_append))
      · rw [movePath_of_not_pref hsp] at hmv
        subst hmv
        exact hsp ((pfxOf_iff _ _).mp hs)
    · rw [if_neg hs]
      rcases hq : fs.stat q with _ | k
      · rw [FS.stat_eq_none_iff]
        intro k hk
        rw [hfs2, FS.mem_renameApply_iff] at hk
        obtain ⟨p, hp, hpd, hmv⟩ := hk
        by_cases hsp : src <+: p
        · obtain ⟨r, hr⟩ := hsp
          rw [← hr, movePath_append] at hmv
          exact hd ((pfxOf_iff _ _).mpr (hmv ▸ pref_append))
        · rw [movePath_of_not_pref hsp] at hmv
          subst hmv
          exact (FS.stat_eq_none_iff fs p).mp hq k hp
      · have hmem := FS.mem_of_stat hq
        have hqd : q ≠ dst := by
          intro h0
          subst h0
          exact hd ((pfxOf_iff _ _).mpr pref_rfl)
        have hk2 : (q, k) ∈ fs2.nodes := by
          rw [hfs2, FS.mem_renameApply_iff]
          refine ⟨q, hmem, hqd, movePath_of_not_pref ?_⟩
          intro hcon
          exact hs ((pfxOf_iff _ _).mpr hcon)
        exact FS.stat_of_mem hWF2.1 hk2

theorem FS.rename_succeeds {fs : FS} {src dst : Path} {k : NodeKind}
    (hs0 : src ≠ []) (hd0 : dst ≠ []) (hne : src ≠ dst) (hnp : ¬ src <+: dst)
    (hst : fs.stat src = some k)
    (hpar : dst.dropLast = [] ∨ fs.stat dst.dropLast = some NodeKind.dir)
    (hdst : fs.stat dst = none) :
    fs.rename src dst = some (fs.renameApply src dst) := by
  unfold FS.rename
  rw [if_neg hne, if_neg (not_or.mpr ⟨hs0, hd0⟩),
    if_neg (fun hb => hnp ((pfxOf_iff src dst).mp hb))]
  simp only [hst]
  rw [if_pos hpar]
  simp only [hdst]

theorem FS.rename_replace_file {fs : FS} {src dst : Path}
    (hs0 : src ≠ []) (hd0 : dst ≠ []) (hne : src ≠ dst) (hnp : ¬ src <+: dst)
    (hst : fs.stat src = some NodeKind.file)
    (hpar : dst.dropLast = [] ∨ fs.stat dst.dropLast = some NodeKind.dir)
    (hdst : fs.stat dst = some NodeKind.file) :
    fs.rename src dst = some (fs.renameApply src dst) := by
  unfold FS.rename
  rw [if_neg hne, if_neg (not_or.mpr ⟨hs0, hd0⟩),
    if_neg (fun hb => hnp ((pfxOf_iff src dst).mp hb))]
  simp only [hst]
  rw [if_pos hpar]
  simp only [hdst]
  rw [if_pos (by simp)]

/-! ### `appendToLast` and sibling paths -/

theorem appendToLast_concat (q : Path) (x s : String) :
    appendToLast (q ++ [x]) s = q ++ [x ++ s] := by
  induction q with
  | nil => rfl
  | cons a q ih =>
    cases q with
    | nil => rfl
    | cons b r =>
      show a :: appendToLast ((b :: r) ++ [x]) s = a :: ((b :: r) ++ [x ++ s])
      rw [ih]

theorem appendToLast_eq (p : Path) (h : p ≠ []) (s : String) :
    appendToLast p s = p.dropLast ++ [p.getLast h ++ s] := by
  conv_lhs => rw [← List.dropLast_append_getLast h]
  rw [appendToLast_concat]

theorem appendToLast_ne_nil (p : Path) (s : String) : appendToLast p s ≠ [] := by
  cases p with
  | nil => simp [appendToLast]
  | cons a q =>
    cases q with
    | nil => simp [appendToLast]
    | cons b r => simp [appendToLast]

theorem appendToLast_length (p : Path) (h : p ≠ []) (s : String) :
    (appendToLast p s).length = p.length := by
  rw [appendToLast_eq p h s]
  conv_rhs => rw [← List.dropLast_append_getLast h]
  simp

theorem appendToLast_dropLast (p : Path) (h : p ≠ []) (s : String) :
    (appendToLast p s).dropLast = p.dropLast := by
  rw [appendToLast_eq p h s, List.dropLast_concat]

theorem string_ne_append_of_ne_empty {x s : String} (hs : s ≠ "") : x ++ s ≠ x := by
  intro h0
  have h1 := congrArg String.length h0
  rw [String.length_append] at h1
  have h2 : s.length = 0 := by omega
  have h3 : s.toList.length = 0 := by
    rw [← String.length]
    exact h2
  exact hs (by
    have h4 := List.eq_nil_of_length_eq_zero h3
    cases s with
    | mk data => simp only [String.toList] at h4; rw [h4])

theorem appendToLast_ne (p : Path) (h : p ≠ []) {s : String} (hs : s ≠ "") :
    appendToLast p s ≠ p := by
  rw [appendToLast_eq p h s]
  intro h0
  conv_rhs at h0 => rw [← List.dropLast_append_getLast h]
  have h1 := List.append_cancel_left h0
  have h2 : p.getLast h ++ s = p.getLast h := by simpa using h1
  exact string_ne_append_of_ne_empty hs h2

theorem sibling_not_pref {base : Path} {x y : String} (hxy : x ≠ y) (r t : Path) :
    ¬ ((base ++ [x]) ++ r) <+: ((base ++ [y]) ++ t) := by
  intro h
  rw [List.append_assoc, List.append_assoc, pref_cancel] at h
  obtain ⟨u, hu⟩ := h
  have hxy2 : x :: (r ++ u) = y :: t := by simpa using hu
  injection hxy2 with h1 h2
  exact hxy h1

/-! ### The directory allocator -/

theorem mkDirTry_exhausted (fs : FS) (dir : Path) :
    ∀ (fuel : Nat) (t : Int), t ≤ 10 →
      (∀ i : Int, t < i → i ≤ 10 → fs.mkdir (mkDirCandidate dir i) = none) →
      mkDirTry fs dir t fuel = .error (.mkDirError dir, fs) := by
  intro fuel
  induction fuel with
  | zero =>
    intro t ht hall
    simp only [mkDirTry]
  | succ fuel ih =>
    intro t ht hall
    simp only [mkDirTry]
    by_cases h10 : t = 10
    · rw [if_pos h10]
    · rw [if_neg h10]
      rw [hall (t + 1) (by omega) (by omega)]
      exact ih (t + 1) (by omega) (fun i hi1 hi2 => hall i (by omega) hi2)

theorem mkDirTry_ok (fs : FS) (dir : Path) :
    ∀ (fuel : Nat) (t : Int) (p : Path) (fs2 : FS), t ≤ 10 →
      mkDirTry fs dir t fuel = .ok (p, fs2) →
      ∃ i : Int, t < i ∧ i ≤ 10 ∧ p = mkDirCandidate dir i ∧
        fs.mkdir (mkDirCandidate dir i) = some fs2 ∧
        ∀ j : Int, t < j → j < i → fs.mkdir (mkDirCandidate dir j) = none := by
  intro fuel
  induction fuel with
  | zero =>
    intro t p fs2 ht h
    simp only [mkDirTry] at h
    cases h
  | succ fuel ih =>
    intro t p fs2 ht h
    simp only [mkDirTry] at h
    by_cases h10 : t = 10
    · rw [if_pos h10] at h
      cases h
    · rw [if_neg h10] at h
      rcases hm : fs.mkdir (mkDirCandidate dir (t + 1)) with _ | fs3
      · rw [hm] at h
        obtain ⟨i, hi1, hi2, hi3, hi4, hi5⟩ := ih (t + 1) p fs2 (by omega) h
        refine ⟨i, by omega, hi2, hi3, hi4, ?_⟩
        intro j hj1 hj2
        by_cases hj : j = t + 1
        · rw [hj]
          exact hm
        · exact hi5 j (by omega) hj2
      · rw [hm] at h
        injection h with h2
        simp only [Prod.mk.injEq] at h2
        obtain ⟨rfl, rfl⟩ := h2
        exact ⟨t + 1, by omega, by omega, rfl, hm,
          fun j hj1 hj2 => absurd hj2 (by omega)⟩

theorem mkDir_ok_inv {fs fs2 : FS} {filename : String} {parentDir createdDir : Path}
    (h : mkDir fs filename parentDir = .ok (createdDir, fs2)) :
    (∃ x, createdDir = parentDir ++ [x]) ∧ fs.mkdir createdDir = some fs2 := by
  unfold mkDir at h
  by_cases hext : goExt filename = ""
  · rw [if_pos hext] at h
    cases h
  · rw [if_neg hext] at h
    obtain ⟨i, -, -, hi3, hi4, -⟩ :=
      mkDirTry_ok fs (parentDir ++ [stripTrailing filename (goExt filename)]) 12
        (-1) createdDir fs2 (by omega) h
    constructor
    · rw [hi3]
      unfold mkDirCandidate
      by_cases hip : i > 0
      · rw [if_pos hip, appendToLast_concat]
        exact ⟨_, rfl⟩
      · rw [if_neg hip]
        exact ⟨_, rfl⟩
    · rw [hi3]
      exact hi4

/-! ### Unfolding `flatten` over a directory listing -/

theorem flatten_eq (fs : FS) (archivFile : String) (dir : Path) (nanos : Nat)
    {entries : List (String × NodeKind)} (hread : fs.readDir dir = some entries) :
    flatten fs archivFile dir nanos =
      match entries.filter (fun e => decide (e.2 = NodeKind.dir ∨ e.1 ≠ archivFile)) with
      | [e] =>
        if e.2 = NodeKind.dir then _flatten fs archivFile dir e.1 nanos else .ok fs
      | _ => .ok fs := by
  unfold flatten getDirContentsWithoutArchivFile
  rw [hread]

theorem FS.parent_fact {fs : FS} (hWF : fs.WF) {p : Path} {k : NodeKind}
    (h : fs.stat p = some k) :
    p.dropLast = [] ∨ fs.stat p.dropLast = some NodeKind.dir := by
  rcases hWF.parent_mem (FS.mem_of_stat h) with hroot | hmem
  · exact Or.inl hroot
  · exact Or.inr (FS.stat_of_mem hWF.1 hmem)

theorem FS.childrenOf_eq_nil_of_stat {fs : FS} (hWF : fs.WF) {p : Path}
    (h : ∀ name, fs.stat (p ++ [name]) = none) : fs.childrenOf p = [] := by
  rw [FS.childrenOf_eq_nil_iff]
  intro name k hm
  have hx := FS.stat_of_mem hWF.1 hm
  rw [h name] at hx
  cases hx

theorem dash_append_ne_empty (x : String) : ("-" ++ x) ≠ "" := by
  intro h0
  have h1 := congrArg String.length h0
  rw [String.length_append] at h1
  have h2 : ("-" : String).length = 1 := rfl
  have h3 : ("" : String).length = 0 := rfl
  omega

theorem sibling_facts {dir : Path} (hdir0 : dir ≠ []) {s : String} (hs : s ≠ "") :
    (∀ r t : Path, ¬ (dir ++ r) <+: (appendToLast dir s ++ t)) ∧
    (∀ r t : Path, ¬ (appendToLast dir s ++ r) <+: (dir ++ t)) := by
  have hd : appendToLast dir s = dir.dropLast ++ [dir.getLast hdir0 ++ s] :=
    appendToLast_eq dir hdir0 s
  have hxy : dir.getLast hdir0 ++ s ≠ dir.getLast hdir0 := string_ne_append_of_ne_empty hs
  constructor
  · intro r t h
    refine @sibling_not_pref dir.dropLast (dir.getLast hdir0) (dir.getLast hdir0 ++ s)
      (Ne.symm hxy) r t ?_
    rw [List.dropLast_append_getLast hdir0, ← hd]
    exact h
  · intro r t h
    refine @sibling_not_pref dir.dropLast (dir.getLast hdir0 ++ s) (dir.getLast hdir0)
      hxy r t ?_
    rw [List.dropLast_append_getLast hdir0, ← hd]
    exact h

theorem pfxOf_true_of {p q : Path} (h : p <+: q) : pfxOf p q = true :=
  (pfxOf_iff _ _).mpr h

theorem pfxOf_false_of_not {p q : Path} (h : ¬ p <+: q) : ¬ (pfxOf p q = true) :=
  fun hb => h ((pfxOf_iff _ _).mp hb)

theorem not_pref_of_length_lt {p q : Path} (h : q.length < p.length) : ¬ p <+: q :=
  fun hp => absurd (pref_length_le hp) (by omega)

theorem append_singleton_inj {p q : Path} {a b : String} (h : p ++ [a] = q ++ [b])
    (hl : p.length = q.length) : p = q ∧ a = b := by
  have hp := congrArg (List.take p.length) h
  rw [List.take_left, hl, List.take_left] at hp
  refine ⟨hp, ?_⟩
  rw [hp] at h
  have hx := List.append_cancel_left h
  simpa using hx

theorem FS.readDir_some {fs : FS} {p : Path} {l : List (String × NodeKind)}
    (h : fs.readDir p = some l) :
    (p = [] ∨ fs.stat p = some NodeKind.dir) ∧ l = fs.childrenOf p := by
  unfold FS.readDir at h
  by_cases hc : p = [] ∨ fs.stat p = some NodeKind.dir
  · rw [if_pos hc] at h
    exact ⟨hc, (Option.some.inj h).symm⟩
  · rw [if_neg hc] at h
    cases h

theorem FS.rename_none_file_onto_dir {fs : FS} {src dst : Path}
    (hsrc : fs.stat src = some NodeKind.file) (hdst : fs.stat dst = some NodeKind.dir) :
    fs.rename src dst = none := by
  have hne : src ≠ dst := by
    intro h0
    rw [h0, hdst] at hsrc
    cases hsrc
  unfold FS.rename
  rw [if_neg hne]
  by_cases h0 : src = [] ∨ dst = []
  · rw [if_pos h0]
  · rw [if_neg h0]
    by_cases hp : pfxOf src dst = true
    · rw [if_pos hp]
    · rw [if_neg hp]
      simp only [hsrc]
      by_cases hpar : dst.dropLast = [] ∨ fs.stat dst.dropLast = some NodeKind.dir
      · rw [if_pos hpar]
        simp only [hdst]
        rw [if_neg]
        rintro ⟨hk, -⟩
        cases hk
      · rw [if_neg hpar]

/-! ### The batch driver -/

theorem batch_fold_eq (registry : Registry) (remove : Bool) (rmDirs : List String)
    (runCmd : RunCmdOracle) (nanosOf : String → Nat) (dir : Path)
    (callback : String → Bool) :
    ∀ (entries : List (String × NodeKind)) (fs : FS) (acc : List (Path × Err)),
      entries.foldl
        (fun acc e =>
          if e.2 ≠ NodeKind.dir ∧ callback e.1 = true then
            match UnpackFile registry acc.1 e.1 dir remove rmDirs runCmd (nanosOf e.1) with
            | .ok fs2 => (fs2, acc.2)
            | .error (er, fs2) => (fs2, acc.2 ++ [(dir ++ [e.1], er)])
          else acc)
        (fs, acc)
      = ((unpackBatchSpec registry remove rmDirs runCmd nanosOf dir callback fs entries).1,
         acc ++ (unpackBatchSpec registry remove rmDirs runCmd nanosOf dir callback fs entries).2) := by
  intro entries
  induction entries with
  | nil =>
    intro fs acc
    simp [unpackBatchSpec]
  | cons e rest ih =>
    intro fs acc
    rw [List.foldl_cons]
    simp only [unpackBatchSpec]
    by_cases hcb : e.2 ≠ NodeKind.dir ∧ callback e.1 = true
    · rw [if_pos hcb, if_pos hcb]
      rcases hu : UnpackFile registry fs e.1 dir remove rmDirs runCmd (nanosOf e.1)
        with ⟨er, fs2⟩ | fs2
      · simp only [hu]
        rw [ih fs2 (acc ++ [(dir ++ [e.1], er)])]
        simp
      · simp only [hu]
        exact ih fs2 acc
    · rw [if_neg hcb, if_neg hcb]
      exact ih fs acc

/-! ### Claims -/

/-- C1: for every destination directory listing, `flatten` performs the
three-phase collapse (`_flatten`) if and only if the entry list filtered as
in the source (keep directories and entries named differently from the
archive) is a single directory entry; in every other case it returns
success with the filesystem unchanged — no rename is performed. -/
theorem c1_flatten_trigger_iff (fs : FS) (archivFile : String) (dir : Path) (nanos : Nat)
    (entries : List (String × NodeKind)) (hread : fs.readDir dir = some entries) :
    (∃ sub, entries.filter (fun e => decide (e.2 = NodeKind.dir ∨ e.1 ≠ archivFile))
        = [(sub, NodeKind.dir)] ∧
      flatten fs archivFile dir nanos = _flatten fs archivFile dir sub nanos) ∨
    ((¬ ∃ sub, entries.filter (fun e => decide (e.2 = NodeKind.dir ∨ e.1 ≠ archivFile))
        = [(sub, NodeKind.dir)]) ∧
      flatten fs archivFile dir nanos = .ok fs) := by
  rw [flatten_eq fs archivFile dir nanos hread]
  rcases hc : entries.filter (fun e => decide (e.2 = NodeKind.dir ∨ e.1 ≠ archivFile))
    with _ | ⟨⟨name, k⟩, rest⟩
  · right
    rw [hc]
    refine ⟨?_, rfl⟩
    rintro ⟨sub, hs⟩
    cases hs
  · rcases rest with _ | ⟨e2, rest2⟩
    · cases k
      · right
        rw [hc]
        refine ⟨?_, rfl⟩
        rintro ⟨sub, hs⟩
        injection hs with h1 h2
        injection h1 with h3 h4
        cases h4
      · left
        rw [hc]
        exact ⟨name, rfl, rfl⟩
    · right
      rw [hc]
      refine ⟨?_, rfl⟩
      rintro ⟨sub, hs⟩
      injection hs with h1 h2
      cases h2

/-- C1 witness: a destination holding a single subdirectory triggers the
collapse branch. -/
theorem c1_witness :
    (⟨[(["D"], NodeKind.dir), (["D", "inner"], NodeKind.dir)]⟩ : FS).readDir ["D"]
        = some [("inner", NodeKind.dir)] ∧
    ((∃ sub, [("inner", NodeKind.dir)].filter
          (fun e => decide (e.2 = NodeKind.dir ∨ e.1 ≠ "a.zip"))
        = [(sub, NodeKind.dir)] ∧
      flatten ⟨[(["D"], NodeKind.dir), (["D", "inner"], NodeKind.dir)]⟩ "a.zip" ["D"] 7
        = _flatten ⟨[(["D"], NodeKind.dir), (["D", "inner"], NodeKind.dir)]⟩ "a.zip" ["D"] sub 7) ∨
    ((¬ ∃ sub, [("inner", NodeKind.dir)].filter
          (fun e => decide (e.2 = NodeKind.dir ∨ e.1 ≠ "a.zip"))
        = [(sub, NodeKind.dir)]) ∧
      flatten ⟨[(["D"], NodeKind.dir), (["D", "inner"], NodeKind.dir)]⟩ "a.zip" ["D"] 7
        = .ok ⟨[(["D"], NodeKind.dir), (["D", "inner"], NodeKind.dir)]⟩)) :=
  ⟨by decide, c1_flatten_trigger_iff ⟨[(["D"], NodeKind.dir), (["D", "inner"], NodeKind.dir)]⟩
    "a.zip" ["D"] 7 [("inner", NodeKind.dir)] (by decide)⟩

/-- C2: the directory allocator first attempts the stripped base name, then
`base-1` … `base-10` in order (ten suffixed attempts beyond the base); if
every candidate fails it returns the allocation-exhausted `MkDirError`
carrying the base path, and on success the returned directory did not exist
before the call and exists (as a directory) after it. -/
theorem c2_allocator (fs : FS) (filename : String) (parentDir : Path)
    (hext : goExt filename ≠ "") :
    ((∀ i : Int, 0 ≤ i → i ≤ 10 →
        fs.mkdir (mkDirCandidate
          (parentDir ++ [stripTrailing filename (goExt filename)]) i) = none) →
      mkDir fs filename parentDir
        = .error (.mkDirError (parentDir ++ [stripTrailing filename (goExt filename)]), fs)) ∧
    (∀ p fs2, mkDir fs filename parentDir = .ok (p, fs2) →
      ∃ i : Int, 0 ≤ i ∧ i ≤ 10 ∧
        p = mkDirCandidate (parentDir ++ [stripTrailing filename (goExt filename)]) i ∧
        (∀ j : Int, 0 ≤ j → j < i →
          fs.mkdir (mkDirCandidate
            (parentDir ++ [stripTrailing filename (goExt filename)]) j) = none) ∧
        fs.stat p = none ∧ fs2.stat p = some NodeKind.dir) := by
  constructor
  · intro hall
    unfold mkDir
    rw [if_neg hext]
    exact mkDirTry_exhausted fs _ 12 (-1) (by omega)
      (fun i hi1 hi2 => hall i (by omega) hi2)
  · intro p fs2 h
    unfold mkDir at h
    rw [if_neg hext] at h
    obtain ⟨i, hi1, hi2, hi3, hi4, hi5⟩ :=
      mkDirTry_ok fs (parentDir ++ [stripTrailing filename (goExt filename)]) 12
        (-1) p fs2 (by omega) h
    refine ⟨i, by omega, hi2, hi3, fun j hj1 hj2 => hi5 j (by omega) hj2, ?_, ?_⟩
    · rw [hi3]
      exact (FS.mkdir_eq_some_iff.mp hi4).2.1
    · rw [hi3, FS.mkdir_stat hi4, if_pos rfl]

/-- C2 witness: allocating for `a.zip` in an empty snapshot. -/
theorem c2_witness :
    goExt "a.zip" ≠ "" ∧
    (((∀ i : Int, 0 ≤ i → i ≤ 10 →
        FS.mkdir ⟨[]⟩ (mkDirCandidate ([] ++ [stripTrailing "a.zip" (goExt "a.zip")]) i)
          = none) →
      mkDir ⟨[]⟩ "a.zip" []
        = .error (.mkDirError ([] ++ [stripTrailing "a.zip" (goExt "a.zip")]), ⟨[]⟩)) ∧
    (∀ p fs2, mkDir ⟨[]⟩ "a.zip" [] = .ok (p, fs2) →
      ∃ i : Int, 0 ≤ i ∧ i ≤ 10 ∧
        p = mkDirCandidate ([] ++ [stripTrailing "a.zip" (goExt "a.zip")]) i ∧
        (∀ j : Int, 0 ≤ j → j < i →
          FS.mkdir ⟨[]⟩ (mkDirCandidate ([] ++ [stripTrailing "a.zip" (goExt "a.zip")]) j)
            = none) ∧
        FS.stat ⟨[]⟩ p = none ∧ fs2.stat p = some NodeKind.dir)) :=
  ⟨by decide, c2_allocator ⟨[]⟩ "a.zip" [] (by decide)⟩

/-- C3 counterexample: the candidate set does not exclude every entry named
like the archive — a directory named like the archive file is kept. -/
theorem c3_counterexample_dir_named_archive :
    ∃ res, getDirContentsWithoutArchivFile
        ⟨[(["D"], NodeKind.dir), (["D", "a.zip"], NodeKind.dir)]⟩ ["D"] "a.zip"
        = .ok res ∧ ("a.zip", NodeKind.dir) ∈ res :=
  ⟨[("a.zip", NodeKind.dir)], rfl, by decide⟩

/-- C3 (amended): the flatten candidate set contains exactly the entries
that are directories or whose name differs from the archive filename; only
non-directory entries named like the archive are excluded. -/
theorem c3_amended_candidate_set (fs : FS) (dir : Path) (archivFile : String)
    (entries : List (String × NodeKind)) (hread : fs.readDir dir = some entries) :
    ∃ res, getDirContentsWithoutArchivFile fs dir archivFile = .ok res ∧
      ∀ name k, ((name, k) ∈ res ↔
        ((name, k) ∈ entries ∧ (k = NodeKind.dir ∨ name ≠ archivFile))) := by
  refine ⟨entries.filter (fun e => decide (e.2 = NodeKind.dir ∨ e.1 ≠ archivFile)), ?_, ?_⟩
  · unfold getDirContentsWithoutArchivFile
    rw [hread]
  · intro name k
    rw [List.mem_filter]
    simp

/-- C3 witness: the amended description on a two-entry listing. -/
theorem c3_witness :
    (⟨[(["D"], NodeKind.dir), (["D", "x"], NodeKind.dir), (["D", "a.zip"], NodeKind.file)]⟩ : FS).readDir
        ["D"] = some [("x", NodeKind.dir), ("a.zip", NodeKind.file)] ∧
    ∃ res, getDirContentsWithoutArchivFile
        ⟨[(["D"], NodeKind.dir), (["D", "x"], NodeKind.dir), (["D", "a.zip"], NodeKind.file)]⟩
        ["D"] "a.zip" = .ok res ∧
      ∀ name k, ((name, k) ∈ res ↔
        ((name, k) ∈ [("x", NodeKind.dir), ("a.zip", NodeKind.file)] ∧
          (k = NodeKind.dir ∨ name ≠ "a.zip"))) :=
  ⟨by decide, c3_amended_candidate_set
    ⟨[(["D"], NodeKind.dir), (["D", "x"], NodeKind.dir), (["D", "a.zip"], NodeKind.file)]⟩
    ["D"] "a.zip" [("x", NodeKind.dir), ("a.zip", NodeKind.file)] (by decide)⟩

/-- C5: when the filtered entry list has two or more entries, or exactly one
non-directory entry, `flatten` returns success with the snapshot unchanged:
every pre-existing path is untouched and no path is created. -/
theorem c5_flatten_noop (fs : FS) (archivFile : String) (dir : Path) (nanos : Nat)
    (entries : List (String × NodeKind)) (hread : fs.readDir dir = some entries)
    (hshape :
      2 ≤ (entries.filter (fun e => decide (e.2 = NodeKind.dir ∨ e.1 ≠ archivFile))).length ∨
      ∃ name, entries.filter (fun e => decide (e.2 = NodeKind.dir ∨ e.1 ≠ archivFile))
          = [(name, NodeKind.file)]) :
    flatten fs archivFile dir nanos = .ok fs := by
  rw [flatten_eq fs archivFile dir nanos hread]
  rcases hc : entries.filter (fun e => decide (e.2 = NodeKind.dir ∨ e.1 ≠ archivFile))
    with _ | ⟨⟨name, k⟩, rest⟩
  · rw [hc]
  · rcases rest with _ | ⟨e2, rest2⟩
    · rw [hc] at hshape
      rcases hshape with hlen | ⟨name2, hs⟩
      · simp at hlen
      · injection hs with h1 h2
        injection h1 with h3 h4
        subst h4
        rw [hc]
        exact rfl
    · rw [hc]

/-- C5 witness: a two-entry destination is left unchanged. -/
theorem c5_witness :
    (⟨[(["D"], NodeKind.dir), (["D", "x"], NodeKind.dir), (["D", "y"], NodeKind.dir)]⟩ : FS).readDir
        ["D"] = some [("x", NodeKind.dir), ("y", NodeKind.dir)] ∧
    (2 ≤ ([("x", NodeKind.dir), ("y", NodeKind.dir)].filter
        (fun e => decide (e.2 = NodeKind.dir ∨ e.1 ≠ "a.zip"))).length ∨
      ∃ name, [("x", NodeKind.dir), ("y", NodeKind.dir)].filter
          (fun e => decide (e.2 = NodeKind.dir ∨ e.1 ≠ "a.zip"))
        = [(name, NodeKind.file)]) ∧
    flatten ⟨[(["D"], NodeKind.dir), (["D", "x"], NodeKind.dir), (["D", "y"], NodeKind.dir)]⟩
        "a.zip" ["D"] 7
      = .ok ⟨[(["D"], NodeKind.dir), (["D", "x"], NodeKind.dir), (["D", "y"], NodeKind.dir)]⟩ :=
  ⟨by decide, Or.inl (by decide),
    c5_flatten_noop ⟨[(["D"], NodeKind.dir), (["D", "x"], NodeKind.dir), (["D", "y"], NodeKind.dir)]⟩
      "a.zip" ["D"] 7 [("x", NodeKind.dir), ("y", NodeKind.dir)] (by decide)
      (Or.inl (by decide))⟩

/-- C7: unpacking an existing regular file whose (non-empty) extension has
no registered command fails with `UnknownPacker` and leaves the filesystem
exactly as it was. -/
theorem c7_unknown_packer_no_mutation (registry : Registry) (fs : FS) (filename : String)
    (dir : Path) (remove : Bool) (rmDirs : List String) (runCmd : RunCmdOracle) (nanos : Nat)
    (hstat : fs.stat (dir ++ [filename]) = some NodeKind.file)
    (hext : goExt filename ≠ "")
    (hlook : lookupUnpacker registry (toLowerStr (goExt filename)) = "") :
    UnpackFile registry fs filename dir remove rmDirs runCmd nanos
      = .error (.unknownPacker (toLowerStr (goExt filename)), fs) := by
  simp only [UnpackFile, hstat]
  rw [if_neg (by decide : ¬ (NodeKind.file = NodeKind.dir))]
  rw [if_neg hext]
  rw [hlook]
  rfl

/-- C7 witness: a `.foo` archive with an empty registry. -/
theorem c7_witness :
    (⟨[(["D"], NodeKind.dir), (["D", "a.foo"], NodeKind.file)]⟩ : FS).stat (["D"] ++ ["a.foo"])
        = some NodeKind.file ∧
    goExt "a.foo" ≠ "" ∧
    lookupUnpacker [] (toLowerStr (goExt "a.foo")) = "" ∧
    UnpackFile [] ⟨[(["D"], NodeKind.dir), (["D", "a.foo"], NodeKind.file)]⟩ "a.foo" ["D"]
        false [] (fun fs _ _ => some fs) 7
      = .error (.unknownPacker (toLowerStr (goExt "a.foo")),
          ⟨[(["D"], NodeKind.dir), (["D", "a.foo"], NodeKind.file)]⟩) :=
  ⟨by decide, by decide, by decide,
    c7_unknown_packer_no_mutation [] ⟨[(["D"], NodeKind.dir), (["D", "a.foo"], NodeKind.file)]⟩
      "a.foo" ["D"] false [] (fun fs _ _ => some fs) 7 (by decide) (by decide) (by decide)⟩

/-- C8 counterexample: with an empty extension and a template lacking the
placeholder, `RegisterUnpacker` reports the extension error, not the
missing-placeholder error — the extension checks run first. -/
theorem c8_counterexample_ext_checked_first :
    RegisterUnpacker [] "" "unzip" = .error Err.extEmpty ∧
    RegisterUnpacker [] "" "unzip" ≠ .error Err.missingPlaceholder := by
  constructor
  · rfl
  · intro h
    rw [show RegisterUnpacker [] "" "unzip" = .error Err.extEmpty from rfl] at h
    injection h with h2
    cases h2

/-- C8 (amended): for every syntactically valid extension (non-empty,
starting with a dot) and every template lacking the `[FILE]` placeholder,
registration fails with the missing-placeholder error regardless of the
registry contents; for invalid extensions the extension errors take
precedence. -/
theorem c8_amended_placeholder_check (registry : Registry) (ext cmd : String)
    (h1 : ext ≠ "") (h2 : ext.toList.head? = some '.')
    (h3 : containsSeq "[FILE]".toList cmd.toList = false) :
    RegisterUnpacker registry ext cmd = .error Err.missingPlaceholder := by
  unfold RegisterUnpacker
  rw [if_neg h1]
  rw [if_neg (not_not_intro h2)]
  have hcond : ¬ containsSeq "[FILE]".toList cmd.toList = true := by
    rw [h3]
    simp
  rw [if_pos hcond]

/-- C8 witness: registering `unzip` (no placeholder) for `.zip`. -/
theorem c8_witness :
    (".zip" : String) ≠ "" ∧ ".zip".toList.head? = some '.' ∧
    containsSeq "[FILE]".toList "unzip".toList = false ∧
    RegisterUnpacker [] ".zip" "unzip" = .error Err.missingPlaceholder :=
  ⟨by decide, by decide, by decide,
    c8_amended_placeholder_check [] ".zip" "unzip" (by decide) (by decide) (by decide)⟩

/-- C6: if the external command fails after the archive was relocated, the
orchestrator returns the external-command error immediately — archive
removal, junk-directory removal and flatten never run, and no rollback
occurs: the resulting filesystem is exactly the post-relocation state, with
the archive at `createdDir/filename` and gone from `dir/filename`. -/
theorem c6_command_failure_no_rollback (fs fs1 fs2 : FS) (filename : String) (dir : Path)
    (unpacker : String) (remove : Bool) (rmDirs : List String) (runCmd : RunCmdOracle)
    (nanos : Nat) (createdDir : Path)
    (hWF : fs.WF)
    (harch : fs.stat (dir ++ [filename]) = some NodeKind.file)
    (hmk : mkDir fs filename dir = .ok (createdDir, fs1))
    (hmv : fs1.rename (dir ++ [filename]) (createdDir ++ [filename]) = some fs2)
    (hcmd : runCmd fs2 createdDir (replaceFILE unpacker filename) = none) :
    UnpackFileWithUnpacker fs filename dir unpacker remove rmDirs runCmd nanos
      = .error (.runError (replaceFILE unpacker filename), fs2) ∧
    fs2.stat (createdDir ++ [filename]) = some NodeKind.file ∧
    fs2.stat (dir ++ [filename]) = none := by
  obtain ⟨⟨x, hcd⟩, hmkd⟩ := mkDir_ok_inv hmk
  have hWF1 : fs1.WF := FS.mkdir_WF hWF hmkd
  have hfresh : fs.stat createdDir = none := (FS.mkdir_eq_some_iff.mp hmkd).2.1
  have hcd_ne : createdDir ≠ dir ++ [filename] := by
    intro h0
    rw [h0, harch] at hfresh
    cases hfresh
  have hsrc1 : fs1.stat (dir ++ [filename]) = some NodeKind.file := by
    rw [FS.mkdir_stat hmkd, if_neg (Ne.symm hcd_ne)]
    exact harch
  have hne : (dir ++ [filename]) ≠ (createdDir ++ [filename]) := by
    intro h0
    have hdc : dir = createdDir := List.append_cancel_right h0
    rw [hcd] at hdc
    have hl := congrArg List.length hdc
    simp at hl
  have hnotp : ¬ ((createdDir ++ [filename]) <+: (dir ++ [filename])) := by
    intro hp
    have hl := pref_length_le hp
    rw [hcd] at hl
    simp only [List.length_append, List.length_cons, List.length_nil] at hl
    omega
  refine ⟨?_, ?_, ?_⟩
  · simp only [UnpackFileWithUnpacker, hmk, hmv, hcmd]
  · rw [FS.rename_stat hWF1 hne hmv, if_pos ((pfxOf_iff _ _).mpr pref_rfl),
      List.drop_length, List.append_nil]
    exact hsrc1
  · rw [FS.rename_stat hWF1 hne hmv,
      if_neg (fun hb => hnotp ((pfxOf_iff _ _).mp hb)),
      if_pos ((pfxOf_iff _ _).mpr pref_rfl)]

/-- C6 witness: a failing command after `a.zip` has been moved into the
freshly created `r/a` directory. -/
theorem c6_witness :
    (⟨[(["r"], NodeKind.dir), (["r", "a.zip"], NodeKind.file)]⟩ : FS).WF ∧
    (⟨[(["r"], NodeKind.dir), (["r", "a.zip"], NodeKind.file)]⟩ : FS).stat (["r"] ++ ["a.zip"])
        = some NodeKind.file ∧
    mkDir ⟨[(["r"], NodeKind.dir), (["r", "a.zip"], NodeKind.file)]⟩ "a.zip" ["r"]
        = .ok (["r", "a"],
          ⟨[(["r", "a"], NodeKind.dir), (["r"], NodeKind.dir),
            (["r", "a.zip"], NodeKind.file)]⟩) ∧
    (⟨[(["r", "a"], NodeKind.dir), (["r"], NodeKind.dir),
        (["r", "a.zip"], NodeKind.file)]⟩ : FS).rename (["r"] ++ ["a.zip"])
        (["r", "a"] ++ ["a.zip"])
      = some ⟨[(["r", "a"], NodeKind.dir), (["r"], NodeKind.dir),
          (["r", "a", "a.zip"], NodeKind.file)]⟩ ∧
    (UnpackFileWithUnpacker ⟨[(["r"], NodeKind.dir), (["r", "a.zip"], NodeKind.file)]⟩
        "a.zip" ["r"] "unzip [FILE]" false [] (fun _ _ _ => none) 7
      = .error (.runError (replaceFILE "unzip [FILE]" "a.zip"),
          ⟨[(["r", "a"], NodeKind.dir), (["r"], NodeKind.dir),
            (["r", "a", "a.zip"], NodeKind.file)]⟩) ∧
    (⟨[(["r", "a"], NodeKind.dir), (["r"], NodeKind.dir),
        (["r", "a", "a.zip"], NodeKind.file)]⟩ : FS).stat (["r", "a"] ++ ["a.zip"])
        = some NodeKind.file ∧
    (⟨[(["r", "a"], NodeKind.dir), (["r"], NodeKind.dir),
        (["r", "a", "a.zip"], NodeKind.file)]⟩ : FS).stat (["r"] ++ ["a.zip"]) = none) :=
  ⟨by decide, by decide, rfl, rfl,
    c6_command_failure_no_rollback
      ⟨[(["r"], NodeKind.dir), (["r", "a.zip"], NodeKind.file)]⟩
      ⟨[(["r", "a"], NodeKind.dir), (["r"], NodeKind.dir), (["r", "a.zip"], NodeKind.file)]⟩
      ⟨[(["r", "a"], NodeKind.dir), (["r"], NodeKind.dir),
        (["r", "a", "a.zip"], NodeKind.file)]⟩
      "a.zip" ["r"] "unzip [FILE]" false [] (fun _ _ _ => none) 7 ["r", "a"]
      (by decide) (by decide) rfl rfl rfl⟩

/-- C9: the batch driver runs `UnpackFile` on every non-directory entry the
callback accepts — one file's failure never stops the iteration — and its
result is exactly the per-entry recursion `unpackBatchSpec`, whose error
list keys are precisely the failing files' paths with their errors; an
empty error list is returned as the absent (`none`) mapping. -/
theorem c9_batch_isolation (registry : Registry) (remove : Bool) (rmDirs : List String)
    (runCmd : RunCmdOracle) (nanosOf : String → Nat) (fs : FS) (dir : Path)
    (callback : String → Bool) (entries : List (String × NodeKind))
    (hread : fs.readDir dir = some entries) :
    unpackFilesInDir registry remove rmDirs runCmd nanosOf fs dir callback
      = ((unpackBatchSpec registry remove rmDirs runCmd nanosOf dir callback fs entries).1,
         if (unpackBatchSpec registry remove rmDirs runCmd nanosOf dir callback fs entries).2
            = []
         then none
         else some
           (unpackBatchSpec registry remove rmDirs runCmd nanosOf dir callback fs entries).2) := by
  simp only [unpackFilesInDir, hread]
  rw [batch_fold_eq registry remove rmDirs runCmd nanosOf dir callback entries fs []]
  simp only [List.nil_append]
  rcases hl : (unpackBatchSpec registry remove rmDirs runCmd nanosOf dir callback fs entries).2
    with _ | ⟨a, l⟩
  · simp
  · simp

/-- C9 witness: three `.zip` files where only the second one's command
fails; the error mapping has exactly the second file's entry and the third
file was still unpacked (its directory exists in the final state). -/
theorem c9_witness :
    (⟨[(["dir"], NodeKind.dir), (["dir", "a.zip"], NodeKind.file),
        (["dir", "b.zip"], NodeKind.file), (["dir", "c.zip"], NodeKind.file)]⟩ : FS).readDir
        ["dir"]
      = some [("a.zip", NodeKind.file), ("b.zip", NodeKind.file), ("c.zip", NodeKind.file)] ∧
    unpackFilesInDir [(".zip", "unzip [FILE]")] false []
        (fun fs2 p _ => if p = ["dir", "b"] then none else some fs2) (fun _ => 0)
        ⟨[(["dir"], NodeKind.dir), (["dir", "a.zip"], NodeKind.file),
          (["dir", "b.zip"], NodeKind.file), (["dir", "c.zip"], NodeKind.file)]⟩
        ["dir"] (fun _ => true)
      = ((unpackBatchSpec [(".zip", "unzip [FILE]")] false []
            (fun fs2 p _ => if p = ["dir", "b"] then none else some fs2) (fun _ => 0)
            ["dir"] (fun _ => true)
            ⟨[(["dir"], NodeKind.dir), (["dir", "a.zip"], NodeKind.file),
              (["dir", "b.zip"], NodeKind.file), (["dir", "c.zip"], NodeKind.file)]⟩
            [("a.zip", NodeKind.file), ("b.zip", NodeKind.file), ("c.zip", NodeKind.file)]).1,
         if (unpackBatchSpec [(".zip", "unzip [FILE]")] false []
            (fun fs2 p _ => if p = ["dir", "b"] then none else some fs2) (fun _ => 0)
            ["dir"] (fun _ => true)
            ⟨[(["dir"], NodeKind.dir), (["dir", "a.zip"], NodeKind.file),
              (["dir", "b.zip"], NodeKind.file), (["dir", "c.zip"], NodeKind.file)]⟩
            [("a.zip", NodeKind.file), ("b.zip", NodeKind.file), ("c.zip", NodeKind.file)]).2
            = []
         then none
         else some (unpackBatchSpec [(".zip", "unzip [FILE]")] false []
            (fun fs2 p _ => if p = ["dir", "b"] then none else some fs2) (fun _ => 0)
            ["dir"] (fun _ => true)
            ⟨[(["dir"], NodeKind.dir), (["dir", "a.zip"], NodeKind.file),
              (["dir", "b.zip"], NodeKind.file), (["dir", "c.zip"], NodeKind.file)]⟩
            [("a.zip", NodeKind.file), ("b.zip", NodeKind.file),
              ("c.zip", NodeKind.file)]).2) ∧
    (unpackFilesInDir [(".zip", "unzip [FILE]")] false []
        (fun fs2 p _ => if p = ["dir", "b"] then none else some fs2) (fun _ => 0)
        ⟨[(["dir"], NodeKind.dir), (["dir", "a.zip"], NodeKind.file),
          (["dir", "b.zip"], NodeKind.file), (["dir", "c.zip"], NodeKind.file)]⟩
        ["dir"] (fun _ => true)).2
      = some [(["dir", "b.zip"], Err.runError "unzip b.zip")] ∧
    (unpackFilesInDir [(".zip", "unzip [FILE]")] false []
        (fun fs2 p _ => if p = ["dir", "b"] then none else some fs2) (fun _ => 0)
        ⟨[(["dir"], NodeKind.dir), (["dir", "a.zip"], NodeKind.file),
          (["dir", "b.zip"], NodeKind.file), (["dir", "c.zip"], NodeKind.file)]⟩
        ["dir"] (fun _ => true)).1.stat ["dir", "c"] = some NodeKind.dir :=
  ⟨by decide,
    c9_batch_isolation [(".zip", "unzip [FILE]")] false []
      (fun fs2 p _ => if p = ["dir", "b"] then none else some fs2) (fun _ => 0)
      ⟨[(["dir"], NodeKind.dir), (["dir", "a.zip"], NodeKind.file),
        (["dir", "b.zip"], NodeKind.file), (["dir", "c.zip"], NodeKind.file)]⟩
      ["dir"] (fun _ => true)
      [("a.zip", NodeKind.file), ("b.zip", NodeKind.file), ("c.zip", NodeKind.file)]
      (by decide),
    by rfl, by rfl⟩

/-- C10: in the three-phase collapse, the archive is moved back only when
`temp/archiveFileName` exists and is not a directory; when a directory named
like the archive sits beside the promoted subdirectory, that step is
skipped, the final non-recursive removal of the temporary directory fails,
and `_flatten` returns the error with the temporary directory (still
holding the leftover entry) left behind. -/
theorem c10_flatten_aux_leaves_temp (fs : FS) (archivfile sub : String) (dir : Path)
    (nanos : Nat) (hWF : fs.WF) (hdir0 : dir ≠ [])
    (hdir : fs.stat dir = some NodeKind.dir)
    (hsub : fs.stat (dir ++ [sub]) = some NodeKind.dir)
    (harch : fs.stat (dir ++ [archivfile]) = some NodeKind.dir)
    (hne : sub ≠ archivfile)
    (hfresh : fs.stat (appendToLast dir ("-" ++ toString nanos)) = none) :
    ∃ fs2, _flatten fs archivfile dir sub nanos = .error (.fsError, fs2) ∧
      fs2.stat (appendToLast dir ("-" ++ toString nanos)) = some NodeKind.dir ∧
      fs2.stat (appendToLast dir ("-" ++ toString nanos) ++ [archivfile])
        = some NodeKind.dir := by
  have hsne : ("-" ++ toString nanos : String) ≠ "" := dash_append_ne_empty _
  have hd0 : appendToLast dir ("-" ++ toString nanos) ≠ [] := appendToLast_ne_nil dir _
  have hddir : dir ≠ appendToLast dir ("-" ++ toString nanos) :=
    Ne.symm (appendToLast_ne dir hdir0 hsne)
  have hlen : (appendToLast dir ("-" ++ toString nanos)).length = dir.length :=
    appendToLast_length dir hdir0 _
  have hdropl : (appendToLast dir ("-" ++ toString nanos)).dropLast = dir.dropLast :=
    appendToLast_dropLast dir hdir0 _
  obtain ⟨hsib1, hsib2⟩ := sibling_facts hdir0 hsne
  simp only [_flatten]
  generalize hdg : appendToLast dir ("-" ++ toString nanos) = d
    at hfresh hd0 hddir hlen hdropl hsib1 hsib2 ⊢
  have hr1 : fs.rename dir d = some (fs.renameApply dir d) := by
    refine FS.rename_succeeds hdir0 hd0 hddir ?_ hdir ?_ hfresh
    · intro hp
      exact hddir (pref_eq_of_length_le hp (by omega))
    · rw [hdropl]
      exact FS.parent_fact hWF hdir
  have hWF1 : (fs.renameApply dir d).WF := FS.rename_WF hWF hr1
  have hst1 := FS.rename_stat hWF hddir hr1
  have h1_d : (fs.renameApply dir d).stat d = some NodeKind.dir := by
    rw [hst1 d, if_pos ((pfxOf_iff _ _).mpr pref_rfl), List.drop_length, List.append_nil]
    exact hdir
  have h1_dsub : (fs.renameApply dir d).stat (d ++ [sub]) = some NodeKind.dir := by
    rw [hst1 (d ++ [sub]), if_pos ((pfxOf_iff _ _).mpr pref_append), List.drop_left]
    exact hsub
  have h1_darch : (fs.renameApply dir d).stat (d ++ [archivfile]) = some NodeKind.dir := by
    rw [hst1 (d ++ [archivfile]), if_pos ((pfxOf_iff _ _).mpr pref_append), List.drop_left]
    exact harch
  have hn_d_dir : ¬ (pfxOf d dir = true) := by
    intro hb
    exact hddir (pref_eq_of_length_le ((pfxOf_iff _ _).mp hb) (by omega)).symm
  have h1_dir_none : (fs.renameApply dir d).stat dir = none := by
    rw [hst1 dir, if_neg hn_d_dir, if_pos ((pfxOf_iff _ _).mpr pref_rfl)]
  have hlen_dir_pos : 1 ≤ dir.length := List.length_pos.mpr hdir0
  have hn_d_pdir : ¬ (pfxOf d dir.dropLast = true) := by
    intro hb
    have hx := pref_length_le ((pfxOf_iff _ _).mp hb)
    rw [List.length_dropLast] at hx
    omega
  have hn_dir_pdir : ¬ (pfxOf dir dir.dropLast = true) := by
    intro hb
    have hx := pref_length_le ((pfxOf_iff _ _).mp hb)
    rw [List.length_dropLast] at hx
    omega
  have hne2 : (d ++ [sub]) ≠ dir := by
    intro h0
    have hl2 := congrArg List.length h0
    simp only [List.length_append, List.length_cons, List.length_nil] at hl2
    omega
  have hnp2 : ¬ (d ++ [sub]) <+: dir := by
    intro hp
    have hx := hsib2 [sub] []
    rw [List.append_nil] at hx
    exact hx hp
  have hpar2 : dir.dropLast = [] ∨ (fs.renameApply dir d).stat dir.dropLast
      = some NodeKind.dir := by
    rcases FS.parent_fact hWF hdir with hroot | hpdir
    · exact Or.inl hroot
    · right
      rw [hst1 dir.dropLast, if_neg hn_d_pdir, if_neg hn_dir_pdir]
      exact hpdir
  have hr2 : (fs.renameApply dir d).rename (d ++ [sub]) dir
      = some ((fs.renameApply dir d).renameApply (d ++ [sub]) dir) :=
    FS.rename_succeeds (by simp) hdir0 hne2 hnp2 h1_dsub hpar2 h1_dir_none
  have hst2 := FS.rename_stat hWF1 hne2 hr2
  have hn_dir_darch : ¬ (pfxOf dir (d ++ [archivfile]) = true) := by
    intro hb
    have hx := hsib1 [] [archivfile]
    rw [List.append_nil] at hx
    exact hx ((pfxOf_iff _ _).mp hb)
  have hn_dsub_darch : ¬ (pfxOf (d ++ [sub]) (d ++ [archivfile]) = true) := by
    intro hb
    have hp := (pfxOf_iff _ _).mp hb
    rw [pref_cancel] at hp
    obtain ⟨t, ht⟩ := hp
    have hx : sub :: t = [archivfile] := by simpa using ht
    injection hx with hx1 hx2
    exact hne hx1
  have h2_darch : ((fs.renameApply dir d).renameApply (d ++ [sub]) dir).stat
      (d ++ [archivfile]) = some NodeKind.dir := by
    rw [hst2 (d ++ [archivfile]), if_neg hn_dir_darch, if_neg hn_dsub_darch]
    exact h1_darch
  have hn_dir_d : ¬ (pfxOf dir d = true) := by
    intro hb
    exact hddir (pref_eq_of_length_le ((pfxOf_iff _ _).mp hb) (by omega))
  have hn_dsub_d : ¬ (pfxOf (d ++ [sub]) d = true) := by
    intro hb
    have hx := pref_length_le ((pfxOf_iff _ _).mp hb)
    simp only [List.length_append, List.length_cons, List.length_nil] at hx
    omega
  have h2_d : ((fs.renameApply dir d).renameApply (d ++ [sub]) dir).stat d
      = some NodeKind.dir := by
    rw [hst2 d, if_neg hn_dir_d, if_neg hn_dsub_d]
    exact h1_d
  have hrem : ((fs.renameApply dir d).renameApply (d ++ [sub]) dir).remove d = none :=
    FS.remove_none_of_child h2_d (FS.mem_of_stat h2_darch)
  refine ⟨(fs.renameApply dir d).renameApply (d ++ [sub]) dir, ?_, h2_d, h2_darch⟩
  simp [hr1, hr2, h2_darch, hrem]

/-- C10 witness: a destination whose only extra entry is a directory named
like the archive; `_flatten` fails at the final removal and the timestamped
temporary directory survives with that entry inside. -/
theorem c10_witness :
    (⟨[(["D"], NodeKind.dir), (["D", "inner"], NodeKind.dir),
        (["D", "a.zip"], NodeKind.dir)]⟩ : FS).WF ∧
    ("inner" : String) ≠ "a.zip" ∧
    (⟨[(["D"], NodeKind.dir), (["D", "inner"], NodeKind.dir),
        (["D", "a.zip"], NodeKind.dir)]⟩ : FS).stat
        (appendToLast ["D"] ("-" ++ toString 7)) = none ∧
    ∃ fs2, _flatten ⟨[(["D"], NodeKind.dir), (["D", "inner"], NodeKind.dir),
        (["D", "a.zip"], NodeKind.dir)]⟩ "a.zip" ["D"] "inner" 7
        = .error (.fsError, fs2) ∧
      fs2.stat (appendToLast ["D"] ("-" ++ toString 7)) = some NodeKind.dir ∧
      fs2.stat (appendToLast ["D"] ("-" ++ toString 7) ++ ["a.zip"])
        = some NodeKind.dir :=
  ⟨by decide, by decide, by decide,
    c10_flatten_aux_leaves_temp
      ⟨[(["D"], NodeKind.dir), (["D", "inner"], NodeKind.dir),
        (["D", "a.zip"], NodeKind.dir)]⟩
      "a.zip" "inner" ["D"] 7 (by decide) (by decide) (by decide) (by decide)
      (by decide) (by decide) (by decide)⟩

/-- C4: for a destination directory `D` whose listing is exactly one
subdirectory `sub` plus the retained archive file `arch`, a successful
`flatten` leaves the archive as a file at `D/arch`, places the former
contents of `D/sub` directly under `D` (any path under `D` other than the
archive entry now shows what `D/sub` showed at that relative position),
removes `D/sub` itself (when the subdirectory held no equally-named child),
keeps `D` a directory, removes the timestamped temporary sibling entirely,
and touches nothing outside `D` and that sibling. -/
theorem c4_flatten_promotes_inner (fs fsR : FS) (arch sub : String) (D : Path)
    (nanos : Nat) (l : List (String × NodeKind))
    (hWF : fs.WF) (hD0 : D ≠ [])
    (hread : fs.readDir D = some l)
    (hperm : l.Perm [(sub, NodeKind.dir), (arch, NodeKind.file)])
    (hfresh : fs.stat (appendToLast D ("-" ++ toString nanos)) = none)
    (hok : flatten fs arch D nanos = Except.ok fsR) :
    fsR.stat (D ++ [arch]) = some NodeKind.file ∧
    (∀ rest : Path, rest ≠ [] → rest ≠ [arch] →
      fsR.stat (D ++ rest) = fs.stat (D ++ sub :: rest)) ∧
    (fs.stat (D ++ [sub, sub]) = none → fsR.stat (D ++ [sub]) = none) ∧
    fsR.stat D = some NodeKind.dir ∧
    (∀ q, appendToLast D ("-" ++ toString nanos) <+: q → fsR.stat q = none) ∧
    (∀ q, ¬ D <+: q → ¬ appendToLast D ("-" ++ toString nanos) <+: q →
      fsR.stat q = fs.stat q) := by
  obtain ⟨hDor, hlchild⟩ := FS.readDir_some hread
  have hDdir : fs.stat D = some NodeKind.dir := by
    rcases hDor with h0 | h0
    · exact absurd h0 hD0
    · exact h0
  have hsubstat : fs.stat (D ++ [sub]) = some NodeKind.dir := by
    apply FS.stat_of_mem hWF.1
    apply FS.mem_childrenOf_iff.mp
    rw [← hlchild]
    exact hperm.mem_iff.mpr (by simp)
  have harchstat : fs.stat (D ++ [arch]) = some NodeKind.file := by
    apply FS.stat_of_mem hWF.1
    apply FS.mem_childrenOf_iff.mp
    rw [← hlchild]
    exact hperm.mem_iff.mpr (by simp)
  have hchild : ∀ name k, fs.stat (D ++ [name]) = some k →
      (name = sub ∧ k = NodeKind.dir) ∨ (name = arch ∧ k = NodeKind.file) := by
    intro name k hst
    have hmm := FS.mem_of_stat hst
    have hmm2 : (name, k) ∈ fs.childrenOf D := FS.mem_childrenOf_iff.mpr hmm
    rw [← hlchild] at hmm2
    have hx := hperm.mem_iff.mp hmm2
    simp at hx
    exact hx
  have hsubarch : sub ≠ arch := by
    intro h0
    rw [h0, harchstat] at hsubstat
    simp at hsubstat
  have hno_other : ∀ (c : String) (t2 : Path), c ≠ sub → c ≠ arch →
      fs.stat (D ++ c :: t2) = none := by
    intro c t2 hcs hca
    rcases hst : fs.stat (D ++ c :: t2) with _ | k
    · rfl
    · exfalso
      have hmm := FS.mem_of_stat hst
      by_cases heq : D ++ [c] = D ++ c :: t2
      · rw [← heq] at hst
        rcases hchild c k hst with ⟨h1, -⟩ | ⟨h1, -⟩
        · exact hcs h1
        · exact hca h1
      · have hdirc := hWF.mem_of_pref hmm ⟨t2, by simp⟩ (by simp) heq
        have hstc := FS.stat_of_mem hWF.1 hdirc
        rcases hchild c NodeKind.dir hstc with ⟨h1, -⟩ | ⟨h1, -⟩
        · exact hcs h1
        · exact hca h1
  have hfl : l.filter (fun e => decide (e.2 = NodeKind.dir ∨ e.1 ≠ arch))
      = [(sub, NodeKind.dir)] := by
    apply List.perm_singleton.mp
    have hx := hperm.filter (fun e => decide (e.2 = NodeKind.dir ∨ e.1 ≠ arch))
    have hy : ([(sub, NodeKind.dir), (arch, NodeKind.file)].filter
        (fun e => decide (e.2 = NodeKind.dir ∨ e.1 ≠ arch))) = [(sub, NodeKind.dir)] := by
      simp
    rw [hy] at hx
    exact hx
  rw [flatten_eq fs arch D nanos hread, hfl] at hok
  have hok2 : _flatten fs arch D sub nanos = Except.ok fsR := hok
  have hsne : ("-" ++ toString nanos : String) ≠ "" := dash_append_ne_empty _
  have hd0 : appendToLast D ("-" ++ toString nanos) ≠ [] := appendToLast_ne_nil D _
  have hDd : D ≠ appendToLast D ("-" ++ toString nanos) :=
    Ne.symm (appendToLast_ne D hD0 hsne)
  have hlen : (appendToLast D ("-" ++ toString nanos)).length = D.length :=
    appendToLast_length D hD0 _
  have hdropl : (appendToLast D ("-" ++ toString nanos)).dropLast = D.dropLast :=
    appendToLast_dropLast D hD0 _
  obtain ⟨hsib1, hsib2⟩ := sibling_facts hD0 hsne
  simp only [_flatten] at hok2
  generalize hdg : appendToLast D ("-" ++ toString nanos) = d
    at hfresh hd0 hDd hlen hdropl hsib1 hsib2 hok2 ⊢
  have hr1 : fs.rename D d = some (fs.renameApply D d) := by
    refine FS.rename_succeeds hD0 hd0 hDd ?_ hDdir ?_ hfresh
    · intro hp
      exact hDd (pref_eq_of_length_le hp (by omega))
    · rw [hdropl]
      exact FS.parent_fact hWF hDdir
  have hWF1 : (fs.renameApply D d).WF := FS.rename_WF hWF hr1
  have hst1 := FS.rename_stat hWF hDd hr1
  have h1_d : (fs.renameApply D d).stat d = some NodeKind.dir := by
    rw [hst1 d, if_pos ((pfxOf_iff _ _).mpr pref_rfl), List.drop_length, List.append_nil]
    exact hDdir
  have h1_dsub : (fs.renameApply D d).stat (d ++ [sub]) = some NodeKind.dir := by
    rw [hst1 (d ++ [sub]), if_pos ((pfxOf_iff _ _).mpr pref_append), List.drop_left]
    exact hsubstat
  have h1_darch : (fs.renameApply D d).stat (d ++ [arch]) = some NodeKind.file := by
    rw [hst1 (d ++ [arch]), if_pos ((pfxOf_iff _ _).mpr pref_append), List.drop_left]
    exact harchstat
  have hn_d_D : ¬ (pfxOf d D = true) := by
    intro hb
    exact hDd (pref_eq_of_length_le ((pfxOf_iff _ _).mp hb) (by omega)).symm
  have h1_D_none : (fs.renameApply D d).stat D = none := by
    rw [hst1 D, if_neg hn_d_D, if_pos ((pfxOf_iff _ _).mpr pref_rfl)]
  have hlen_D_pos : 1 ≤ D.length := List.length_pos.mpr hD0
  have hn_d_pD : ¬ (pfxOf d D.dropLast = true) := by
    intro hb
    have hx := pref_length_le ((pfxOf_iff _ _).mp hb)
    rw [List.length_dropLast] at hx
    omega
  have hn_D_pD : ¬ (pfxOf D D.dropLast = true) := by
    intro hb
    have hx := pref_length_le ((pfxOf_iff _ _).mp hb)
    rw [List.length_dropLast] at hx
    omega
  have hne2 : (d ++ [sub]) ≠ D := by
    intro h0
    have hl2 := congrArg List.length h0
    simp only [List.length_append, List.length_cons, List.length_nil] at hl2
    omega
  have hnp2 : ¬ (d ++ [sub]) <+: D := by
    intro hp
    have hx := hsib2 [sub] []
    rw [List.append_nil] at hx
    exact hx hp
  have hpar2 : D.dropLast = [] ∨ (fs.renameApply D d).stat D.dropLast
      = some NodeKind.dir := by
    rcases FS.parent_fact hWF hDdir with hroot | hpdir
    · exact Or.inl hroot
    · right
      rw [hst1 D.dropLast, if_neg hn_d_pD, if_neg hn_D_pD]
      exact hpdir
  have hr2 : (fs.renameApply D d).rename (d ++ [sub]) D
      = some ((fs.renameApply D d).renameApply (d ++ [sub]) D) :=
    FS.rename_succeeds (by simp) hD0 hne2 hnp2 h1_dsub hpar2 h1_D_none
  have hWF2 : ((fs.renameApply D d).renameApply (d ++ [sub]) D).WF :=
    FS.rename_WF hWF1 hr2
  have hst2 := FS.rename_stat hWF1 hne2 hr2
  have hn_D_darch : ¬ (pfxOf D (d ++ [arch]) = true) := by
    intro hb
    have hx := hsib1 [] [arch]
    rw [List.append_nil] at hx
    exact hx ((pfxOf_iff _ _).mp hb)
  have hn_dsub_darch : ¬ (pfxOf (d ++ [sub]) (d ++ [arch]) = true) := by
    intro hb
    exact hsubarch (pref_concat_iff.mp ((pfxOf_iff _ _).mp hb))
  have h2_darch : ((fs.renameApply D d).renameApply (d ++ [sub]) D).stat
      (d ++ [arch]) = some NodeKind.file := by
    rw [hst2 (d ++ [arch]), if_neg hn_D_darch, if_neg hn_dsub_darch]
    exact h1_darch
  have hn_D_d : ¬ (pfxOf D d = true) := by
    intro hb
    exact hDd (pref_eq_of_length_le ((pfxOf_iff _ _).mp hb) (by omega))
  have hn_dsub_d : ¬ (pfxOf (d ++ [sub]) d = true) := by
    intro hb
    have hx := pref_length_le ((pfxOf_iff _ _).mp hb)
    simp only [List.length_append, List.length_cons, List.length_nil] at hx
    omega
  have h2_d : ((fs.renameApply D d).renameApply (d ++ [sub]) D).stat d
      = some NodeKind.dir := by
    rw [hst2 d, if_neg hn_D_d, if_neg hn_dsub_d]
    exact h1_d
  have h2_D : ((fs.renameApply D d).renameApply (d ++ [sub]) D).stat D
      = some NodeKind.dir := by
    rw [hst2 D, if_pos ((pfxOf_iff _ _).mpr pref_rfl), List.drop_length, List.append_nil]
    exact h1_dsub
  have hne3 : (d ++ [arch]) ≠ (D ++ [arch]) := by
    intro h0
    have hx := List.append_cancel_right h0
    exact hDd hx.symm
  have hnp3 : ¬ (d ++ [arch]) <+: (D ++ [arch]) := hsib2 [arch] [arch]
  have hpar3 : (D ++ [arch]).dropLast = [] ∨
      ((fs.renameApply D d).renameApply (d ++ [sub]) D).stat ((D ++ [arch]).dropLast)
        = some NodeKind.dir := by
    right
    rw [List.dropLast_concat]
    exact h2_D
  have hm2eq : ((fs.renameApply D d).renameApply (d ++ [sub]) D).stat (D ++ [arch])
      = fs.stat (D ++ [sub, arch]) := by
    rw [hst2 (D ++ [arch]), if_pos ((pfxOf_iff _ _).mpr pref_append), List.drop_left,
      show ((d ++ [sub]) ++ [arch] : Path) = d ++ [sub, arch] from by simp,
      hst1 (d ++ [sub, arch]), if_pos ((pfxOf_iff _ _).mpr pref_append), List.drop_left]
  have hr3 : ((fs.renameApply D d).renameApply (d ++ [sub]) D).rename
      (d ++ [arch]) (D ++ [arch])
      = some (((fs.renameApply D d).renameApply (d ++ [sub]) D).renameApply
          (d ++ [arch]) (D ++ [arch])) := by
    rcases hm0 : ((fs.renameApply D d).renameApply (d ++ [sub]) D).stat (D ++ [arch])
        with _ | k3
    · exact FS.rename_succeeds (by simp) (by simp) hne3 hnp3 h2_darch hpar3 hm0
    · cases k3
      · exact FS.rename_replace_file (by simp) (by simp) hne3 hnp3 h2_darch hpar3 hm0
      · exfalso
        have hfail := FS.rename_none_file_onto_dir h2_darch hm0
        simp [hr1, hr2, h2_darch, hfail] at hok2
  have hm23 : fs.stat (D ++ [sub, arch]) = none ∨
      fs.stat (D ++ [sub, arch]) = some NodeKind.file := by
    obtain ⟨-, -, -, ⟨k0, hk0, -, hdstc⟩, -⟩ := FS.rename_some_inv hne3 hr3
    rw [h2_darch] at hk0
    injection hk0 with hk0
    rcases hdstc with hnone | ⟨hsome, -⟩
    · left
      rw [← hm2eq]
      exact hnone
    · right
      rw [← hm2eq, hsome, ← hk0]
  have hWF3 : (((fs.renameApply D d).renameApply (d ++ [sub]) D).renameApply
      (d ++ [arch]) (D ++ [arch])).WF := FS.rename_WF hWF2 hr3
  have hst3 := FS.rename_stat hWF2 hne3 hr3
  have hn_Darch_d : ¬ (pfxOf (D ++ [arch]) d = true) := by
    intro hb
    have hx := pref_length_le ((pfxOf_iff _ _).mp hb)
    simp only [List.length_append, List.length_cons, List.length_nil] at hx
    omega
  have hn_darch_d : ¬ (pfxOf (d ++ [arch]) d = true) := by
    intro hb
    have hx := pref_length_le ((pfxOf_iff _ _).mp hb)
    simp only [List.length_append, List.length_cons, List.length_nil] at hx
    omega
  have h3_d : (((fs.renameApply D d).renameApply (d ++ [sub]) D).renameApply
      (d ++ [arch]) (D ++ [arch])).stat d = some NodeKind.dir := by
    rw [hst3 d, if_neg hn_Darch_d, if_neg hn_darch_d]
    exact h2_d
  have h3_children : ∀ name, (((fs.renameApply D d).renameApply (d ++ [sub]) D).renameApply
      (d ++ [arch]) (D ++ [arch])).stat (d ++ [name]) = none := by
    intro name
    have hn1 : ¬ (pfxOf (D ++ [arch]) (d ++ [name]) = true) := by
      intro hb
      have hp := (pfxOf_iff _ _).mp hb
      have he := pref_eq_of_length_le hp (by
        simp only [List.length_append, List.length_cons, List.length_nil]
        omega)
      obtain ⟨hDd2, -⟩ := append_singleton_inj he (by omega)
      exact hDd hDd2
    rw [hst3 (d ++ [name]), if_neg hn1]
    by_cases hna : name = arch
    · subst hna
      rw [if_pos ((pfxOf_iff _ _).mpr pref_rfl)]
    · have hn2 : ¬ (pfxOf (d ++ [arch]) (d ++ [name]) = true) := by
        intro hb
        exact hna (pref_concat_iff.mp ((pfxOf_iff _ _).mp hb)).symm
      rw [if_neg hn2]
      have hn3 : ¬ (pfxOf D (d ++ [name]) = true) := by
        intro hb
        have hx := hsib1 [] [name]
        rw [List.append_nil] at hx
        exact hx ((pfxOf_iff _ _).mp hb)
      rw [hst2 (d ++ [name]), if_neg hn3]
      by_cases hns : name = sub
      · subst hns
        rw [if_pos ((pfxOf_iff _ _).mpr pref_rfl)]
      · have hn4 : ¬ (pfxOf (d ++ [sub]) (d ++ [name]) = true) := by
          intro hb
          exact hns (pref_concat_iff.mp ((pfxOf_iff _ _).mp hb)).symm
        rw [if_neg hn4, hst1 (d ++ [name]), if_pos ((pfxOf_iff _ _).mpr pref_append),
          List.drop_left]
        exact hno_other name [] hns hna
  have hche := FS.childrenOf_eq_nil_of_stat hWF3 h3_children
  have hrem : (((fs.renameApply D d).renameApply (d ++ [sub]) D).renameApply
      (d ++ [arch]) (D ++ [arch])).remove d
      = some ⟨((((fs.renameApply D d).renameApply (d ++ [sub]) D).renameApply
          (d ++ [arch]) (D ++ [arch])).nodes.filter (fun e => decide (e.1 ≠ d)))⟩ :=
    FS.remove_dir_of_empty h3_d hche
  simp only [hr1, hr2, h2_darch] at hok2
  rw [if_pos (show NodeKind.file ≠ NodeKind.dir from by decide)] at hok2
  simp only [hr3, hrem] at hok2
  injection hok2 with hok3
  subst hok3
  have hmain3 : ∀ rest : Path, rest ≠ [] → rest ≠ [arch] →
      ((((fs.renameApply D d).renameApply (d ++ [sub]) D).renameApply
          (d ++ [arch]) (D ++ [arch])).stat (D ++ rest))
        = fs.stat (D ++ sub :: rest) := by
    intro rest hr0 hra
    rcases rest with _ | ⟨name, rest2⟩
    · exact absurd rfl hr0
    · by_cases hna : name = arch
      · rw [hna] at hra ⊢
        rcases rest2 with _ | ⟨c2, rest3⟩
        · exact absurd rfl hra
        · have hpref : (D ++ [arch]) <+: (D ++ arch :: c2 :: rest3) :=
            ⟨c2 :: rest3, by simp⟩
          rw [hst3 (D ++ arch :: c2 :: rest3), if_pos ((pfxOf_iff _ _).mpr hpref),
            show (D ++ arch :: c2 :: rest3 : Path) = (D ++ [arch]) ++ (c2 :: rest3)
              from by simp,
            List.drop_left]
          have hn3 : ¬ (pfxOf D ((d ++ [arch]) ++ c2 :: rest3) = true) := by
            intro hb
            have hp := (pfxOf_iff _ _).mp hb
            rw [List.append_assoc] at hp
            have hx := hsib1 [] ([arch] ++ c2 :: rest3)
            rw [List.append_nil] at hx
            exact hx hp
          have hn4 : ¬ (pfxOf (d ++ [sub]) ((d ++ [arch]) ++ c2 :: rest3) = true) := by
            intro hb
            have hp := (pfxOf_iff _ _).mp hb
            rw [List.append_assoc, List.singleton_append] at hp
            exact hsubarch (pref_concat_iff.mp hp)
          rw [hst2 ((d ++ [arch]) ++ c2 :: rest3), if_neg hn3, if_neg hn4,
            hst1 ((d ++ [arch]) ++ c2 :: rest3),
            if_pos ((pfxOf_iff _ _).mpr (pref_trans pref_append pref_append)),
            show ((d ++ [arch]) ++ c2 :: rest3 : Path) = d ++ (arch :: c2 :: rest3)
              from by simp,
            List.drop_left]
          have hlhs : fs.stat (D ++ arch :: c2 :: rest3) = none := by
            have hne0 : (D ++ arch :: c2 :: rest3) ≠ (D ++ [arch]) := by
              intro h0
              have hx := congrArg List.length h0
              simp only [List.length_append, List.length_cons, List.length_nil] at hx
              omega
            exact FS.file_no_desc hWF harchstat hpref hne0
          have hrhs : fs.stat (D ++ sub :: arch :: c2 :: rest3) = none := by
            have hpref2 : (D ++ [sub, arch]) <+: (D ++ sub :: arch :: c2 :: rest3) :=
              ⟨c2 :: rest3, by simp⟩
            rcases hm23 with hmn | hmf
            · exact FS.stat_none_desc hWF hmn (by simp) hpref2
            · have hne0 : (D ++ sub :: arch :: c2 :: rest3) ≠ (D ++ [sub, arch]) := by
                intro h0
                have hx := congrArg List.length h0
                simp only [List.length_append, List.length_cons, List.length_nil] at hx
                omega
              exact FS.file_no_desc hWF hmf hpref2 hne0
          rw [hlhs, hrhs]
      · have hn1 : ¬ (pfxOf (D ++ [arch]) (D ++ name :: rest2) = true) := by
          intro hb
          exact hna (pref_concat_iff.mp ((pfxOf_iff _ _).mp hb)).symm
        have hn2 : ¬ (pfxOf (d ++ [arch]) (D ++ name :: rest2) = true) := by
          intro hb
          exact hsib2 [arch] (name :: rest2) ((pfxOf_iff _ _).mp hb)
        rw [hst3 (D ++ name :: rest2), if_neg hn1, if_neg hn2,
          hst2 (D ++ name :: rest2), if_pos ((pfxOf_iff _ _).mpr pref_append),
          List.drop_left,
          hst1 ((d ++ [sub]) ++ name :: rest2),
          if_pos ((pfxOf_iff _ _).mpr (pref_trans pref_append pref_append)),
          show ((d ++ [sub]) ++ name :: rest2 : Path) = d ++ (sub :: name :: rest2)
            from by simp,
          List.drop_left]
  refine ⟨?_, ?_, ?_, ?_, ?_, ?_⟩
  · have hqd : D ++ [arch] ≠ d := by
      intro h0
      have hx := congrArg List.length h0
      simp only [List.length_append, List.length_cons, List.length_nil] at hx
      omega
    rw [FS.remove_stat hrem, if_neg hqd, hst3 (D ++ [arch]),
      if_pos ((pfxOf_iff _ _).mpr pref_rfl), List.drop_length, List.append_nil]
    exact h2_darch
  · intro rest hr0 hra
    have hqd : D ++ rest ≠ d := by
      intro h0
      have hx := congrArg List.length h0
      have hx2 : 0 < rest.length := List.length_pos.mpr hr0
      simp only [List.length_append] at hx
      omega
    rw [FS.remove_stat hrem, if_neg hqd]
    exact hmain3 rest hr0 hra
  · intro h0
    have hqd : D ++ [sub] ≠ d := by
      intro h1
      have hx := congrArg List.length h1
      simp only [List.length_append, List.length_cons, List.length_nil] at hx
      omega
    rw [FS.remove_stat hrem, if_neg hqd, hmain3 [sub] (by simp) (by
      intro hx
      injection hx with h1 h2
      exact hsubarch h1)]
    exact h0
  · have hnA : ¬ (pfxOf (D ++ [arch]) D = true) := by
      intro hb
      have hx := pref_length_le ((pfxOf_iff _ _).mp hb)
      simp only [List.length_append, List.length_cons, List.length_nil] at hx
      omega
    have hnB : ¬ (pfxOf (d ++ [arch]) D = true) := by
      intro hb
      have hx := pref_length_le ((pfxOf_iff _ _).mp hb)
      simp only [List.length_append, List.length_cons, List.length_nil] at hx
      omega
    rw [FS.remove_stat hrem, if_neg hDd, hst3 D, if_neg hnA, if_neg hnB]
    exact h2_D
  · intro q hdq
    rw [FS.remove_stat hrem]
    by_cases hqd : q = d
    · rw [if_pos hqd]
    · rw [if_neg hqd]
      obtain ⟨t, rfl⟩ := hdq
      rcases t with _ | ⟨c, t2⟩
      · exact absurd (List.append_nil d) hqd
      · have hn1 : ¬ (pfxOf (D ++ [arch]) (d ++ c :: t2) = true) := by
          intro hb
          exact hsib1 [arch] (c :: t2) ((pfxOf_iff _ _).mp hb)
        rw [hst3 (d ++ c :: t2), if_neg hn1]
        by_cases hca : c = arch
        · rw [if_pos ((pfxOf_iff _ _).mpr
            (show (d ++ [arch]) <+: (d ++ c :: t2) from by
              rw [hca]
              exact ⟨t2, by simp⟩))]
        · have hn2 : ¬ (pfxOf (d ++ [arch]) (d ++ c :: t2) = true) := by
            intro hb
            exact hca (pref_concat_iff.mp ((pfxOf_iff _ _).mp hb)).symm
          rw [if_neg hn2]
          have hn3 : ¬ (pfxOf D (d ++ c :: t2) = true) := by
            intro hb
            have hx := hsib1 [] (c :: t2)
            rw [List.append_nil] at hx
            exact hx ((pfxOf_iff _ _).mp hb)
          rw [hst2 (d ++ c :: t2), if_neg hn3]
          by_cases hcs : c = sub
          · rw [if_pos ((pfxOf_iff _ _).mpr
              (show (d ++ [sub]) <+: (d ++ c :: t2) from by
                rw [hcs]
                exact ⟨t2, by simp⟩))]
          · have hn4 : ¬ (pfxOf (d ++ [sub]) (d ++ c :: t2) = true) := by
              intro hb
              exact hcs (pref_concat_iff.mp ((pfxOf_iff _ _).mp hb)).symm
            rw [if_neg hn4, hst1 (d ++ c :: t2),
              if_pos ((pfxOf_iff _ _).mpr pref_append), List.drop_left]
            exact hno_other c t2 hcs hca
  · intro q hDq hdq
    have hqd : q ≠ d := by
      intro h0
      apply hdq
      rw [h0]
    have hn1 : ¬ (pfxOf (D ++ [arch]) q = true) := by
      intro hb
      exact hDq (pref_trans pref_append ((pfxOf_iff _ _).mp hb))
    have hn2 : ¬ (pfxOf (d ++ [arch]) q = true) := by
      intro hb
      exact hdq (pref_trans pref_append ((pfxOf_iff _ _).mp hb))
    have hn3 : ¬ (pfxOf D q = true) := fun hb => hDq ((pfxOf_iff _ _).mp hb)
    have hn4 : ¬ (pfxOf (d ++ [sub]) q = true) := by
      intro hb
      exact hdq (pref_trans pref_append ((pfxOf_iff _ _).mp hb))
    have hn5 : ¬ (pfxOf d q = true) := fun hb => hdq ((pfxOf_iff _ _).mp hb)
    rw [FS.remove_stat hrem, if_neg hqd, hst3 q, if_neg hn1, if_neg hn2,
      hst2 q, if_neg hn3, if_neg hn4, hst1 q, if_neg hn5, if_neg hn3]

/-- C4 witness: a destination `D` listing exactly `inner/` (holding one
file) and the archive file `a.zip`; `flatten` promotes the file, keeps the
archive at `D/a.zip`, and erases `D/inner`. -/
theorem c4_witness :
    (⟨[(["D"], NodeKind.dir), (["D", "inner"], NodeKind.dir),
        (["D", "inner", "x.txt"], NodeKind.file),
        (["D", "a.zip"], NodeKind.file)]⟩ : FS).WF ∧
    (["D"] : Path) ≠ [] ∧
    (⟨[(["D"], NodeKind.dir), (["D", "inner"], NodeKind.dir),
        (["D", "inner", "x.txt"], NodeKind.file),
        (["D", "a.zip"], NodeKind.file)]⟩ : FS).readDir ["D"]
      = some [("inner", NodeKind.dir), ("a.zip", NodeKind.file)] ∧
    (⟨[(["D"], NodeKind.dir), (["D", "inner"], NodeKind.dir),
        (["D", "inner", "x.txt"], NodeKind.file),
        (["D", "a.zip"], NodeKind.file)]⟩ : FS).stat
      (appendToLast ["D"] ("-" ++ toString 7)) = none ∧
    flatten ⟨[(["D"], NodeKind.dir), (["D", "inner"], NodeKind.dir),
        (["D", "inner", "x.txt"], NodeKind.file),
        (["D", "a.zip"], NodeKind.file)]⟩ "a.zip" ["D"] 7
      = Except.ok ⟨[(["D"], NodeKind.dir), (["D", "x.txt"], NodeKind.file),
          (["D", "a.zip"], NodeKind.file)]⟩ ∧
    (⟨[(["D"], NodeKind.dir), (["D", "x.txt"], NodeKind.file),
        (["D", "a.zip"], NodeKind.file)]⟩ : FS).stat (["D"] ++ ["a.zip"])
      = some NodeKind.file ∧
    (⟨[(["D"], NodeKind.dir), (["D", "x.txt"], NodeKind.file),
        (["D", "a.zip"], NodeKind.file)]⟩ : FS).stat (["D"] ++ ["inner"]) = none := by
  have h := c4_flatten_promotes_inner
    ⟨[(["D"], NodeKind.dir), (["D", "inner"], NodeKind.dir),
      (["D", "inner", "x.txt"], NodeKind.file), (["D", "a.zip"], NodeKind.file)]⟩
    ⟨[(["D"], NodeKind.dir), (["D", "x.txt"], NodeKind.file),
      (["D", "a.zip"], NodeKind.file)]⟩
    "a.zip" "inner" ["D"] 7
    [("inner", NodeKind.dir), ("a.zip", NodeKind.file)]
    (by decide) (by decide) (by decide) (List.Perm.refl _) (by decide) (by rfl)
  exact ⟨by decide, by decide, by decide, by decide, by rfl, h.1, h.2.2.1 (by decide)⟩

end Unpack
